import Mathlib

/-!
Shallow embedding of `ext/stackprof/stackprof.c` (sampling call-stack
profiler).  C `st_table`s with numeric keys become association lists,
machine counters become `Nat` (the code never relies on wrap-around),
and the parallel `frames_buffer`/`lines_buffer` arrays of a captured
stack become a single list of (frame id, line) pairs, index 0 = leaf.
Host-runtime values (VALUE frame handles, object identities) are opaque
and modelled as `Nat`; `rb_obj_id` is the identity on those ids.
-/

namespace StackProf

/-- Association table standing in for a C `st_table` with numeric keys. -/
def lookupTbl {β : Type} : List (Nat × β) → Nat → Option β
  | [], _ => none
  | (k0, v) :: rest, k => if k0 = k then some v else lookupTbl rest k

/-- Mirrors `st_update`: fetch-or-create update of one key. -/
def updateTbl {β : Type} : List (Nat × β) → Nat → (Option β → β) → List (Nat × β)
  | [], k, g => [(k, g none)]
  | (k0, v) :: rest, k, g =>
      if k0 = k then (k0, g (some v)) :: rest else (k0, v) :: updateTbl rest k g

/-- Removal of the entry for a key (`HASH_DEL`; keys are unique in use). -/
def removeTbl {β : Type} : List (Nat × β) → Nat → List (Nat × β)
  | [], _ => []
  | (k0, v) :: rest, k => if k0 = k then rest else (k0, v) :: removeTbl rest k

/-- The `size_t` modulus of the modelled 64-bit host: stored counter
words wrap at `2 ^ 64`. -/
def wordSize : Nat := 2 ^ 64

/-- Mirrors `st_numtable_increment` (via `numtable_increment_callback`);
the stored weights are C `size_t` values, so the addition wraps
mod `2 ^ 64`. -/
def incTbl (t : List (Nat × Nat)) (k : Nat) (inc : Nat) : List (Nat × Nat) :=
  updateTbl t k (fun o => match o with
    | some w => (w + inc) % wordSize
    | none => inc % wordSize)

/-- The C struct `frame_data_t`. -/
structure FrameData where
  total_samples : Nat
  caller_samples : Nat
  edges : Option (List (Nat × Nat))
  lines : Option (List (Nat × Nat))
deriving DecidableEq, Repr

/-- A `MEMZERO`d fresh `frame_data_t` as allocated by `sample_for`. -/
def zeroFrameData : FrameData := ⟨0, 0, none, none⟩

/-- The constant `(size_t)1 << (8*SIZEOF_SIZE_T/2)` on a 64-bit host. -/
def halfWord : Nat := 2 ^ 32

abbrev FramesTbl := List (Nat × FrameData)

/-- One captured stack: (frame id, line) pairs, index 0 = leaf. -/
abbrev Stack := List (Nat × Nat)

/-- Body of the aggregation loop of `stackprof_process_sample` for one
frame record: `i0` is `i == 0` (leaf), `prev` is `prev_frame`. -/
def aggUpdate (aggregate : Bool) (i0 : Bool) (prev : Nat) (line : Nat)
    (fd : FrameData) : FrameData :=
  let fd1 := { fd with total_samples := fd.total_samples + 1 }
  let fd2 :=
    if i0 then { fd1 with caller_samples := fd1.caller_samples + 1 }
    else if aggregate then
      { fd1 with edges := some (incTbl (fd1.edges.getD []) prev 1) }
    else fd1
  if aggregate ∧ 0 < line then
    { fd2 with lines := some (incTbl (fd2.lines.getD []) line
        (if i0 then halfWord + 1 else halfWord)) }
  else fd2

/-- One iteration of the aggregation loop (`sample_for` fetch-or-create
followed by the counter updates). -/
def aggStep (aggregate : Bool) (i0 : Bool) (prev frame line : Nat)
    (tbl : FramesTbl) : FramesTbl :=
  updateTbl tbl frame (fun o => aggUpdate aggregate i0 prev line (o.getD zeroFrameData))

/-- The aggregation loop of `stackprof_process_sample` from index `i`
onward; `i0` tracks `i == 0`. -/
def aggGo (aggregate : Bool) : Bool → Nat → Stack → FramesTbl → FramesTbl
  | _, _, [], tbl => tbl
  | i0, prev, (frame, line) :: rest, tbl =>
      aggGo aggregate false frame rest (aggStep aggregate i0 prev frame line tbl)

/-- The whole aggregation loop over one captured stack (the initial
`prev_frame = Qnil` is never read at the leaf). -/
def aggStack (aggregate : Bool) (tbl : FramesTbl) (stack : Stack) : FramesTbl :=
  aggGo aggregate true 0 stack tbl

/-- Bump the last word of the flat raw buffer, the repeat count of the
previous run (`raw_samples[raw_samples_len-1] += 1`). -/
def incLast : List Nat → List Nat
  | [] => []
  | [c] => [c + 1]
  | a :: rest => a :: incLast rest

/-- The coalescing test of `stackprof_process_sample`: the previous run
(starting at `idx`) has depth `frames.length` and, stored root-first,
the same frame sequence. -/
def rawMatch (flat : List Nat) (idx : Nat) (frames : List Nat) : Bool :=
  decide (flat ≠ [] ∧ flat.get? idx = some frames.length ∧
    (flat.drop (idx + 1)).take frames.length = frames.reverse)

/-- The raw-logging block of `stackprof_process_sample` acting on
`(raw_samples, raw_sample_index)`; `frames` is the captured frame-id
sequence, leaf first.  (The `malloc`/`realloc` capacity management has
no effect on the stored words and is not modelled.) -/
def recordRaw (p : List Nat × Nat) (frames : List Nat) : List Nat × Nat :=
  if rawMatch p.1 p.2 frames then (incLast p.1, p.2)
  else (p.1 ++ frames.length :: (frames.reverse ++ [1]), p.1.length)

/-- One run of the raw sample log: depth, frame ids root-first, count. -/
structure RawRun where
  depth : Nat
  frames : List Nat
  count : Nat
deriving DecidableEq, Repr

/-- Flat encoding of a run list: `depth, frames…, count, depth, …`. -/
def flattenRuns : List RawRun → List Nat
  | [] => []
  | r :: rest => r.depth :: (r.frames ++ r.count :: flattenRuns rest)

/-- Start index of the last run inside the flat encoding
(the value `raw_sample_index` holds). -/
def idxOf (runs : List RawRun) : Nat := (flattenRuns runs.dropLast).length

/-- The decoder matching the flattening loop of `stackprof_results`:
read a depth, that many frame ids, then a repeat count, and repeat.
(On input that is not a well-formed flat log — where the C loop would
read out of bounds — a missing count is reported as 0.) -/
def decodeRaw : List Nat → List RawRun
  | [] => []
  | d :: rest =>
      let fr := rest.take d
      match h : rest.drop d with
      | [] => [⟨d, fr, 0⟩]
      | c :: rest2 =>
          ⟨d, fr, c⟩ :: decodeRaw rest2
termination_by l => l.length
decreasing_by
  have hlen := congrArg List.length h
  simp only [List.length_drop, List.length_cons] at hlen
  simp only [List.length_cons]
  omega

/-- Modelled from the spec: a captured stack matches the preceding run
when the depth and the (root-first) frame sequence agree. -/
def runMatches (r : RawRun) (frames : List Nat) : Bool :=
  decide (r.depth = frames.length ∧ r.frames = frames.reverse)

/-- Increment the repeat count of the final run. -/
def bumpLast : List RawRun → List RawRun
  | [] => []
  | [r] => [⟨r.depth, r.frames, r.count + 1⟩]
  | r :: rest => r :: bumpLast rest

/-- Modelled from the spec: the Raw Sample Log as a structured run
list — coalesce into the immediately preceding run when it matches,
otherwise append a fresh run with count 1.  The flat buffer of the
code (`recordRaw`) is proved to refine this. -/
def recordRun (runs : List RawRun) (frames : List Nat) : List RawRun :=
  match runs.getLast? with
  | some r =>
      if runMatches r frames then bumpLast runs
      else runs ++ [⟨frames.length, frames.reverse, 1⟩]
  | none => [⟨frames.length, frames.reverse, 1⟩]

/-- The run list recorded for a sequence of captured frame sequences. -/
def recordedRuns (samples : List (List Nat)) : List RawRun :=
  samples.foldl recordRun []

/-- The depth of every run is the length of its stored frame sequence. -/
def wfRuns (runs : List RawRun) : Prop :=
  ∀ r ∈ runs, r.depth = r.frames.length

/-- Profiler modes (`sym_wall` …). -/
inductive Mode where
  | wall | cpu | object | custom | heap
deriving DecidableEq, Repr

/-- The C struct `allocation_info_t` (the parallel `frames`/`lines_buffer` arrays and
`num` become one stack; `flags`, `klass` and the always-zero `memsize`
snapshot host metadata that no claim depends on). -/
structure AllocationInfo where
  obj : Nat
  stack : Stack
  living : Bool
deriving DecidableEq, Repr

/-- The `_stackprof` global (`out` is an opaque sink, not modelled). -/
structure ProfileState where
  running : Bool
  raw : Bool
  aggregate : Bool
  heap_all : Bool
  mode : Mode
  interval : Option Nat
  raw_samples : List Nat
  raw_sample_index : Nat
  overall_signals : Nat
  overall_samples : Nat
  during_gc : Nat
  frames : Option FramesTbl
  frames_heap_live : List (Nat × AllocationInfo)
deriving DecidableEq, Repr

/-- Model of `stackprof_process_sample`: raw-log block, then aggregation loop. -/
def processSample (s : ProfileState) (stack : Stack) : ProfileState :=
  let s1 :=
    if s.raw then
      let p := recordRaw (s.raw_samples, s.raw_sample_index) (stack.map Prod.fst)
      { s with raw_samples := p.1, raw_sample_index := p.2 }
    else s
  { s1 with frames := some (aggStack s1.aggregate (s1.frames.getD []) stack) }

/-- Model of `stackprof_record_sample`: count the sample, capture (`stack` is
what `rb_profile_frames` returns), and in Heap mode return before any
aggregation. -/
def recordSample (s : ProfileState) (stack : Stack) : ProfileState :=
  let s1 := { s with overall_samples := s.overall_samples + 1 }
  if s1.mode = Mode.heap then s1 else processSample s1 stack

/-- Model of `stackprof_job_handler` (the static re-entrancy flag cannot trip in
this sequential semantics; the `running` guard remains). -/
def jobHandler (s : ProfileState) (stack : Stack) : ProfileState :=
  if s.running then recordSample s stack else s

/-- Model of `stackprof_signal_handler`.  Here `jobRuns` records whether the postponed
job registered by this signal eventually executes (`rb_postponed_job_register_one`
may coalesce registrations, which is how samples go missing). -/
def signalHandler (s : ProfileState) (duringGc jobRuns : Bool) (stack : Stack) :
    ProfileState :=
  let s1 := { s with overall_signals := s.overall_signals + 1 }
  if duringGc then
    { s1 with during_gc := s1.during_gc + 1, overall_samples := s1.overall_samples + 1 }
  else if jobRuns then jobHandler s1 stack else s1

/-- The `RTEST(interval) && overall_signals % interval` throttle
(checked after the signal counter was bumped). -/
def throttled (s : ProfileState) : Bool :=
  match s.interval with
  | some iv => decide (s.overall_signals % iv ≠ 0)
  | none => false

/-- Model of `stackprof_newobj_handler` (Object mode tracepoint). -/
def newobjHandler (s : ProfileState) (stack : Stack) : ProfileState :=
  let s1 := { s with overall_signals := s.overall_signals + 1 }
  if throttled s1 then s1 else jobHandler s1 stack

/-- Model of `stackprof_newobj_handler_heap`: count, throttle, capture into the
liveness tracker, replacing any stale entry under the same identity. -/
def newobjHandlerHeap (s : ProfileState) (obj : Nat) (stack : Stack) : ProfileState :=
  let s1 := { s with overall_signals := s.overall_signals + 1 }
  if throttled s1 then s1
  else
    { s1 with
      overall_samples := s1.overall_samples + 1,
      frames_heap_live := updateTbl s1.frames_heap_live obj (fun _ => ⟨obj, stack, true⟩) }

/-- Model of `stackprof_freeobj_handler_heap`. -/
def freeobjHandlerHeap (s : ProfileState) (obj : Nat) : ProfileState :=
  match lookupTbl s.frames_heap_live obj with
  | none => s
  | some info =>
      if s.heap_all then
        { s with frames_heap_live :=
            updateTbl s.frames_heap_live obj (fun _ => { info with living := false }) }
      else
        { s with
          frames_heap_live := removeTbl s.frames_heap_live obj,
          overall_signals := s.overall_signals - 1,
          overall_samples := s.overall_samples - 1 }

/-- Model of `stackprof_sample`. -/
def sampleOp (s : ProfileState) (stack : Stack) : Bool × ProfileState :=
  if s.running then
    (true, jobHandler { s with overall_signals := s.overall_signals + 1 } stack)
  else (false, s)

/-- Model of `stackprof_stop`: clear `running`, and in Heap mode drain every
tracker entry through `stackprof_process_sample` and free it.  (The
forced GC and tracepoint disarming act on the host; free events that
GC produces arrive as ordinary ops before this point.) -/
def stopOp (s : ProfileState) : Bool × ProfileState :=
  if s.running then
    let s1 := { s with running := false }
    if s1.mode = Mode.heap then
      let s2 := s1.frames_heap_live.foldl (fun t kv => processSample t kv.2.stack) s1
      (true, { s2 with frames_heap_live := [] })
    else (true, s1)
  else (false, s)

/-- Model of `frame_lines_i`: split the packed word into its two halves,
`[total, leaf]`.  (Matches the C mask/shift for words below `2^64`.) -/
def decodeLine (w : Nat) : Nat × Nat := (w / halfWord, w % halfWord)

/-- Per-frame detail emitted by `frame_i` (`name`/`file`/`line` display
metadata comes from the host and is not modelled). -/
structure FrameOut where
  total_samples : Nat
  samples : Nat
  edges : Option (List (Nat × Nat))
  lines : Option (List (Nat × (Nat × Nat)))
deriving DecidableEq, Repr

def frameOut (fd : FrameData) : FrameOut :=
  { total_samples := fd.total_samples,
    samples := fd.caller_samples,
    edges := fd.edges,
    lines := fd.lines.map (List.map (fun kv => (kv.1, decodeLine kv.2))) }

/-- The result graph built by `stackprof_results` (serialization to an
output sink is out of scope). -/
structure StackProfResults where
  mode : Mode
  interval : Option Nat
  samples : Nat
  gc_samples : Nat
  missed_samples : Nat
  frames : List (Nat × FrameOut)
  raw : Option (List Nat)
deriving DecidableEq, Repr

/-- Model of `stackprof_results`: `Qnil` when never started / already drained or
still running; otherwise a destructive drain of the frame table and,
when enabled and non-empty, of the raw log. -/
def resultsOp (s : ProfileState) : Option StackProfResults × ProfileState :=
  match s.frames with
  | none => (none, s)
  | some tbl =>
      if s.running then (none, s)
      else
        let res : StackProfResults :=
          { mode := s.mode,
            interval := s.interval,
            samples := s.overall_samples,
            gc_samples := s.during_gc,
            missed_samples := s.overall_signals - s.overall_samples,
            frames := tbl.map (fun kv => (kv.1, frameOut kv.2)),
            raw := if s.raw ∧ s.raw_samples ≠ [] then some s.raw_samples else none }
        let s1 := { s with frames := none }
        let s2 :=
          if s1.raw ∧ s1.raw_samples ≠ [] then
            { s1 with raw_samples := [], raw_sample_index := 0, raw := false }
          else s1
        (some res, s2)

/-- The `:mode` option of `start` (`unknown` is any unrecognized value,
`defaulted` is an absent/nil mode). -/
inductive ModeArg where
  | defaulted | wall | cpu | object | custom | heap | unknown
deriving DecidableEq, Repr

/-- Options hash accepted by `stackprof_start`. -/
structure StartOpts where
  mode : ModeArg
  interval : Option Nat
  raw : Bool
  aggregate : Bool
  heap_all : Bool
deriving DecidableEq, Repr

def ModeArg.resolve : ModeArg → Option Mode
  | .defaulted => some Mode.wall
  | .wall => some Mode.wall
  | .cpu => some Mode.cpu
  | .object => some Mode.object
  | .custom => some Mode.custom
  | .heap => some Mode.heap
  | .unknown => none

/-- Model of `stackprof_start`: `Qfalse` if already running (checked before the
options are even parsed); `.error ()` is the `rb_raise` on an unknown
mode.  Timer/tracepoint arming acts on the host and has no state here. -/
def startOp (opts : StartOpts) (s : ProfileState) : Except Unit (Bool × ProfileState) :=
  if s.running then .ok (false, s)
  else
    match opts.mode.resolve with
    | none => .error ()
    | some m =>
        let s1 :=
          if s.frames = none then
            { s with frames := some [], overall_signals := 0,
                     overall_samples := 0, during_gc := 0 }
          else s
        let iv : Option Nat :=
          match m with
          | .object => some (opts.interval.getD 1)
          | .wall => some (opts.interval.getD 1000)
          | .cpu => some (opts.interval.getD 1000)
          | .custom => none
          | .heap => opts.interval
        .ok (true,
          { s1 with running := true, raw := opts.raw, aggregate := opts.aggregate,
                    mode := m, interval := iv, heap_all := opts.heap_all })

/-- The externally triggered events of one profiling run. -/
inductive Op where
  | signal (duringGc jobRuns : Bool) (stack : Stack)
  | objAlloc (stack : Stack)
  | heapAlloc (obj : Nat) (stack : Stack)
  | heapFree (obj : Nat)
  | sample (stack : Stack)
  | stop
  | results
deriving DecidableEq, Repr

/-- Dispatch: asynchronous triggers only fire while the timer or
tracepoint of their mode is armed (armed at `start`, disarmed at
`stop`); the public calls check `running` themselves. -/
def step (s : ProfileState) : Op → ProfileState
  | .signal g j st =>
      if s.running ∧ (s.mode = Mode.wall ∨ s.mode = Mode.cpu) then
        signalHandler s g j st
      else s
  | .objAlloc st =>
      if s.running ∧ s.mode = Mode.object then newobjHandler s st else s
  | .heapAlloc o st =>
      if s.running ∧ s.mode = Mode.heap then newobjHandlerHeap s o st else s
  | .heapFree o =>
      if s.running ∧ s.mode = Mode.heap then freeobjHandlerHeap s o else s
  | .sample st => (sampleOp s st).2
  | .stop => (stopOp s).2
  | .results => (resultsOp s).2

def runOps (s : ProfileState) (ops : List Op) : ProfileState :=
  ops.foldl step s

/-- The state right after the first `start` call of a process:
fresh zeroed counters and an empty frame table, `running` set. -/
def initState (mode : Mode) (raw aggregate heap_all : Bool)
    (interval : Option Nat) : ProfileState :=
  { running := true, raw := raw, aggregate := aggregate, heap_all := heap_all,
    mode := mode, interval := interval, raw_samples := [], raw_sample_index := 0,
    overall_signals := 0, overall_samples := 0, during_gc := 0,
    frames := some [], frames_heap_live := [] }

/-- The `total_samples` recorded for frame `F` (0 when absent). -/
def totalOf (tbl : FramesTbl) (F : Nat) : Nat :=
  match lookupTbl tbl F with
  | some fd => fd.total_samples
  | none => 0

/-- The `caller_samples` recorded for frame `F` (0 when absent). -/
def callerOf (tbl : FramesTbl) (F : Nat) : Nat :=
  match lookupTbl tbl F with
  | some fd => fd.caller_samples
  | none => 0

/-- Sum of `caller_samples` over the whole Frame Aggregate Store. -/
def sumCaller (tbl : FramesTbl) : Nat :=
  (tbl.map (fun kv => kv.2.caller_samples)).sum

/-- The packed per-line word stored for `(F, L)`, if any. -/
def lineWordOf (tbl : FramesTbl) (F L : Nat) : Option Nat :=
  (lookupTbl tbl F).bind (fun fd => lookupTbl (fd.lines.getD []) L)

/-- Modelled from the spec: number of captured stacks containing `F`
anywhere (each stack counted once). -/
def countStacksContaining (samples : List Stack) (F : Nat) : Nat :=
  samples.countP (fun st => st.any (fun q => decide (q.1 = F)))

/-- Total number of occurrences of `F` over all captured stacks
(a stack holding `F` k times contributes k). -/
def totalOccurrences (samples : List Stack) (F : Nat) : Nat :=
  (samples.map (fun st => st.countP (fun q => decide (q.1 = F)))).sum

/-- Number of captured stacks whose leaf (index 0) frame is `F`. -/
def leafStacks (samples : List Stack) (F : Nat) : Nat :=
  samples.countP (fun st =>
    match st.head? with
    | some q => decide (q.1 = F)
    | none => false)

/-- Ops of a pure sampling run: no drain, and every captured stack is
non-empty (a zero-depth capture records a sample with no leaf frame). -/
def sampleOpOk : Op → Prop
  | Op.results => False
  | Op.signal _ _ st => st ≠ []
  | Op.objAlloc st => st ≠ []
  | Op.sample st => st ≠ []
  | Op.heapAlloc _ _ => True
  | Op.heapFree _ => True
  | Op.stop => True

/-- Whether the leaf (index 0) entry of a captured stack is exactly the
pair (frame `F`, line `L`). -/
def leafMatch (st : Stack) (F L : Nat) : Bool :=
  match st.head? with
  | some q => decide (q.1 = F ∧ q.2 = L)
  | none => false

/-- Number of occurrences of the pair (frame `F`, line `L`) in one
captured stack. -/
def lineHitsStack (st : Stack) (F L : Nat) : Nat :=
  st.countP (fun q => decide (q.1 = F ∧ q.2 = L))

/-- Total number of occurrences of (frame `F`, line `L`) over a sample
sequence: each one adds `halfWord` to the packed word. -/
def lineHits (sl : List Stack) (F L : Nat) : Nat :=
  (sl.map (fun st => lineHitsStack st F L)).sum

/-- Number of captured stacks whose leaf entry is (frame `F`, line `L`):
each one adds the extra 1 (the low half) to the packed word. -/
def leafLineHits (sl : List Stack) (F L : Nat) : Nat :=
  sl.countP (fun st => leafMatch st F L)

/-- Contribution of the tail of one stack (from a position with leaf
flag `i0`) to the packed line word of (frame `F`, line `L`). -/
def lineContrib : Bool → Stack → Nat → Nat → Nat
  | _, [], _, _ => 0
  | i0, (f, l) :: rest, F, L =>
      (if f = F ∧ l = L then (if i0 then halfWord + 1 else halfWord) else 0) +
        lineContrib false rest F L

/-! ### Table lemmas -/

theorem lookupTbl_updateTbl {β : Type} (tbl : List (Nat × β)) (k : Nat)
    (g : Option β → β) (k2 : Nat) :
    lookupTbl (updateTbl tbl k g) k2 =
      if k2 = k then some (g (lookupTbl tbl k)) else lookupTbl tbl k2 := by
  induction tbl with
  | nil =>
    by_cases h : k2 = k
    · subst h; simp [updateTbl, lookupTbl]
    · have hs : ¬k = k2 := fun hh => h hh.symm
      simp [updateTbl, lookupTbl, h, hs]
  | cons hd rest ih =>
    obtain ⟨k0, v⟩ := hd
    by_cases h1 : k0 = k
    · subst h1
      by_cases h2 : k2 = k0
      · subst h2; simp [updateTbl, lookupTbl]
      · have hs : ¬k0 = k2 := fun hh => h2 hh.symm
        simp [updateTbl, lookupTbl, h2, hs]
    · by_cases h2 : k2 = k0
      · subst h2
        have hk : ¬k2 = k := fun hh => h1 (hh ▸ rfl)
        simp [updateTbl, lookupTbl, h1, hk]
      · have h2s : ¬k0 = k2 := fun hh => h2 hh.symm
        simp [updateTbl, lookupTbl, h1, h2s, ih]

theorem removeTbl_updateTbl {β : Type} (tbl : List (Nat × β)) (k : Nat)
    (g : Option β → β) (h : lookupTbl tbl k = none) :
    removeTbl (updateTbl tbl k g) k = tbl := by
  induction tbl with
  | nil => simp [updateTbl, removeTbl]
  | cons hd rest ih =>
    obtain ⟨k0, v⟩ := hd
    by_cases h1 : k0 = k
    · simp [lookupTbl, h1] at h
    · simp only [lookupTbl, if_neg h1] at h
      simp [updateTbl, removeTbl, h1, ih h]

theorem length_removeTbl {β : Type} (tbl : List (Nat × β)) (k : Nat) (v : β)
    (h : lookupTbl tbl k = some v) :
    (removeTbl tbl k).length + 1 = tbl.length := by
  induction tbl with
  | nil => simp [lookupTbl] at h
  | cons hd rest ih =>
    obtain ⟨k0, w⟩ := hd
    by_cases h1 : k0 = k
    · simp [removeTbl, h1]
    · simp only [lookupTbl, if_neg h1] at h
      simp [removeTbl, h1, ih h]

/-! ### Effect of one aggregation step on the per-frame counters -/

theorem aggUpdate_total_samples (a i0 : Bool) (p l : Nat) (fd : FrameData) :
    (aggUpdate a i0 p l fd).total_samples = fd.total_samples + 1 := by
  unfold aggUpdate
  cases i0 <;> cases a <;> by_cases hl : 0 < l <;> simp [hl]

theorem aggUpdate_caller_samples (a i0 : Bool) (p l : Nat) (fd : FrameData) :
    (aggUpdate a i0 p l fd).caller_samples =
      fd.caller_samples + (if i0 then 1 else 0) := by
  unfold aggUpdate
  cases i0 <;> cases a <;> by_cases hl : 0 < l <;> simp [hl]

theorem aggUpdate_lines (a i0 : Bool) (p l : Nat) (fd : FrameData) :
    (aggUpdate a i0 p l fd).lines =
      if a ∧ 0 < l then
        some (incTbl (fd.lines.getD []) l (if i0 then halfWord + 1 else halfWord))
      else fd.lines := by
  unfold aggUpdate
  cases i0 <;> cases a <;> by_cases hl : 0 < l <;> simp [hl]

theorem totalOf_aggStep (a i0 : Bool) (p f l F : Nat) (tbl : FramesTbl) :
    totalOf (aggStep a i0 p f l tbl) F = totalOf tbl F + (if f = F then 1 else 0) := by
  unfold totalOf aggStep
  rw [lookupTbl_updateTbl]
  by_cases h : F = f
  · subst h
    simp only [if_pos rfl]
    cases ho : lookupTbl tbl F <;> simp [ho, aggUpdate_total_samples, zeroFrameData]
  · have hs : ¬f = F := fun hh => h hh.symm
    simp [h, hs]

theorem callerOf_aggStep (a i0 : Bool) (p f l F : Nat) (tbl : FramesTbl) :
    callerOf (aggStep a i0 p f l tbl) F =
      callerOf tbl F + (if i0 ∧ f = F then 1 else 0) := by
  unfold callerOf aggStep
  rw [lookupTbl_updateTbl]
  by_cases h : F = f
  · subst h
    simp only [if_pos rfl]
    cases ho : lookupTbl tbl F <;>
      cases i0 <;> simp [ho, aggUpdate_caller_samples, zeroFrameData]
  · have hs : ¬f = F := fun hh => h hh.symm
    simp [h, hs]

theorem totalOf_aggGo (a : Bool) (st : Stack) :
    ∀ (i0 : Bool) (p : Nat) (tbl : FramesTbl) (F : Nat),
      totalOf (aggGo a i0 p st tbl) F =
        totalOf tbl F + st.countP (fun q => decide (q.1 = F)) := by
  induction st with
  | nil => intro i0 p tbl F; simp [aggGo]
  | cons q rest ih =>
    intro i0 p tbl F
    obtain ⟨f, l⟩ := q
    simp only [aggGo, ih, totalOf_aggStep, List.countP_cons]
    by_cases h : f = F <;> simp [h] <;> omega

theorem callerOf_aggGo_false (a : Bool) (st : Stack) :
    ∀ (p : Nat) (tbl : FramesTbl) (F : Nat),
      callerOf (aggGo a false p st tbl) F = callerOf tbl F := by
  induction st with
  | nil => intro p tbl F; simp [aggGo]
  | cons q rest ih =>
    intro p tbl F
    obtain ⟨f, l⟩ := q
    simp [aggGo, ih, callerOf_aggStep]

theorem callerOf_aggStack (a : Bool) (tbl : FramesTbl) (st : Stack) (F : Nat) :
    callerOf (aggStack a tbl st) F =
      callerOf tbl F +
        (match st.head? with
         | some q => if q.1 = F then 1 else 0
         | none => 0) := by
  cases st with
  | nil => simp [aggStack, aggGo]
  | cons q rest =>
    obtain ⟨f, l⟩ := q
    simp only [aggStack, aggGo, callerOf_aggGo_false, callerOf_aggStep, List.head?]
    by_cases h : f = F <;> simp [h]

theorem totalOf_aggStack (a : Bool) (tbl : FramesTbl) (st : Stack) (F : Nat) :
    totalOf (aggStack a tbl st) F =
      totalOf tbl F + st.countP (fun q => decide (q.1 = F)) := by
  unfold aggStack
  exact totalOf_aggGo a st true 0 tbl F

theorem sumCaller_aggStep (a i0 : Bool) (p f l : Nat) (tbl : FramesTbl) :
    sumCaller (aggStep a i0 p f l tbl) = sumCaller tbl + (if i0 then 1 else 0) := by
  induction tbl with
  | nil =>
    cases i0 <;> simp [sumCaller, aggStep, updateTbl, aggUpdate_caller_samples, zeroFrameData]
  | cons hd rest ih =>
    obtain ⟨k0, v⟩ := hd
    by_cases h : k0 = f
    · simp only [sumCaller, aggStep, updateTbl, if_pos h, List.map_cons, List.sum_cons,
        aggUpdate_caller_samples]
      simp [sumCaller] at ih ⊢
      omega
    · simp only [sumCaller, aggStep, updateTbl, if_neg h, List.map_cons, List.sum_cons]
      simp only [sumCaller, aggStep] at ih
      omega

theorem sumCaller_aggGo_false (a : Bool) (st : Stack) :
    ∀ (p : Nat) (tbl : FramesTbl),
      sumCaller (aggGo a false p st tbl) = sumCaller tbl := by
  induction st with
  | nil => intro p tbl; simp [aggGo]
  | cons q rest ih =>
    intro p tbl
    obtain ⟨f, l⟩ := q
    simp [aggGo, ih, sumCaller_aggStep]

theorem sumCaller_aggStack (a : Bool) (tbl : FramesTbl) (st : Stack) (h : st ≠ []) :
    sumCaller (aggStack a tbl st) = sumCaller tbl + 1 := by
  cases st with
  | nil => exact absurd rfl h
  | cons q rest =>
    obtain ⟨f, l⟩ := q
    simp [aggStack, aggGo, sumCaller_aggGo_false, sumCaller_aggStep]

/-! ### Raw sample log: the flat buffer refines the structured run list -/

theorem get_append_len {α : Type} (L : List α) (x : α) (rest : List α) :
    (L ++ x :: rest).get? L.length = some x := by
  induction L with
  | nil => rfl
  | cons a L ih => simpa using ih

theorem drop_append_len {α : Type} (L : List α) (x : α) (rest : List α) :
    (L ++ x :: rest).drop (L.length + 1) = rest := by
  induction L with
  | nil => rfl
  | cons a L ih => simpa using ih

theorem incLast_concat (xs : List Nat) (c : Nat) :
    incLast (xs ++ [c]) = xs ++ [c + 1] := by
  induction xs with
  | nil => rfl
  | cons a xs ih =>
    cases xs with
    | nil => rfl
    | cons b xs2 => simpa [incLast] using ih

theorem bumpLast_concat (xs : List RawRun) (r : RawRun) :
    bumpLast (xs ++ [r]) = xs ++ [⟨r.depth, r.frames, r.count + 1⟩] := by
  induction xs with
  | nil => rfl
  | cons a xs ih =>
    cases xs with
    | nil => rfl
    | cons b xs2 => simpa [bumpLast] using ih

theorem length_bumpLast (xs : List RawRun) : (bumpLast xs).length = xs.length := by
  induction xs with
  | nil => rfl
  | cons a xs ih =>
    cases xs with
    | nil => rfl
    | cons b xs2 => simpa [bumpLast] using ih

theorem flattenRuns_append (a b : List RawRun) :
    flattenRuns (a ++ b) = flattenRuns a ++ flattenRuns b := by
  induction a with
  | nil => rfl
  | cons r rest ih => simp [flattenRuns, ih]

theorem idxOf_concat (init : List RawRun) (r : RawRun) :
    idxOf (init ++ [r]) = (flattenRuns init).length := by
  unfold idxOf
  rw [List.dropLast_concat]

theorem recordRun_nil (frames : List Nat) :
    recordRun [] frames = [⟨frames.length, frames.reverse, 1⟩] := rfl

theorem recordRun_concat (init : List RawRun) (r : RawRun) (frames : List Nat) :
    recordRun (init ++ [r]) frames =
      if runMatches r frames = true then bumpLast (init ++ [r])
      else (init ++ [r]) ++ [⟨frames.length, frames.reverse, 1⟩] := by
  unfold recordRun
  have hlast : (init ++ [r]).getLast? = some r := by simp
  rw [hlast]

theorem rawMatch_flatten_iff (init : List RawRun) (r : RawRun) (frames : List Nat)
    (hwf : r.depth = r.frames.length) :
    rawMatch (flattenRuns (init ++ [r])) (flattenRuns init).length frames = true ↔
      runMatches r frames = true := by
  have hfl : flattenRuns (init ++ [r]) =
      flattenRuns init ++ r.depth :: (r.frames ++ [r.count]) := by
    rw [flattenRuns_append]; rfl
  unfold rawMatch runMatches
  rw [hfl]
  simp only [decide_eq_true_eq]
  constructor
  · rintro ⟨-, hget, htake⟩
    rw [get_append_len] at hget
    have hd : r.depth = frames.length := Option.some_inj.mp hget
    rw [drop_append_len] at htake
    have hlen : frames.length = r.frames.length := by omega
    rw [hlen, List.take_left] at htake
    exact ⟨hd, htake⟩
  · rintro ⟨hd, hfr⟩
    refine ⟨by simp, ?_, ?_⟩
    · rw [get_append_len]
      exact congrArg some hd
    · rw [drop_append_len]
      have hlen : frames.length = r.frames.length := by omega
      rw [hlen, List.take_left]
      exact hfr

theorem recordRaw_flatten (runs : List RawRun) (frames : List Nat)
    (hwf : wfRuns runs) :
    recordRaw (flattenRuns runs, idxOf runs) frames =
      (flattenRuns (recordRun runs frames), idxOf (recordRun runs frames)) := by
  rcases List.eq_nil_or_concat runs with rfl | ⟨init, r, rfl⟩
  · have hm : rawMatch ([] : List Nat) 0 frames = false := by simp [rawMatch]
    simp [recordRaw, hm, recordRun_nil, flattenRuns, idxOf]
  · rw [List.concat_eq_append] at hwf ⊢
    have hr : r.depth = r.frames.length := hwf r (by simp)
    have hidx := idxOf_concat init r
    by_cases hm : runMatches r frames = true
    · have hraw : rawMatch (flattenRuns (init ++ [r])) (flattenRuns init).length frames = true :=
        (rawMatch_flatten_iff init r frames hr).2 hm
      have hinc : incLast (flattenRuns (init ++ [r])) =
          flattenRuns (init ++ [⟨r.depth, r.frames, r.count + 1⟩]) := by
        have hfl : flattenRuns (init ++ [r]) =
            (flattenRuns init ++ r.depth :: r.frames) ++ [r.count] := by
          rw [flattenRuns_append]; simp [flattenRuns]
        rw [hfl, incLast_concat, flattenRuns_append]
        simp [flattenRuns]
      rw [recordRun_concat, if_pos hm, bumpLast_concat]
      simp only [recordRaw, hidx, hraw, if_true]
      rw [hinc, idxOf_concat]
  

    · have hraw : rawMatch (flattenRuns (init ++ [r])) (flattenRuns init).length frames = false := by
        cases hb : rawMatch (flattenRuns (init ++ [r])) (flattenRuns init).length frames with
        | false => rfl
        | true => exact absurd ((rawMatch_flatten_iff init r frames hr).1 hb) hm
      rw [recordRun_concat, if_neg hm]
      simp only [recordRaw, hidx, hraw, Bool.false_eq_true, if_false]
      rw [flattenRuns_append (init ++ [r]), idxOf_concat (init ++ [r])]
      rfl

theorem mem_bumpLast :
    ∀ (runs : List RawRun) (r2 : RawRun), r2 ∈ bumpLast runs →
      r2 ∈ runs ∨ ∃ r0 ∈ runs, r2 = ⟨r0.depth, r0.frames, r0.count + 1⟩ := by
  intro runs
  induction runs with
  | nil => intro r2 h; simp [bumpLast] at h
  | cons a rest ih =>
    intro r2 h
    cases rest with
    | nil =>
      simp [bumpLast] at h
      right
      exact ⟨a, by simp, h⟩
    | cons b rest2 =>
      rw [show bumpLast (a :: b :: rest2) = a :: bumpLast (b :: rest2) from rfl] at h
      rcases List.mem_cons.1 h with h1 | h2
      · left; simp [h1]
      · rcases ih r2 h2 with h3 | ⟨r0, hr0, he⟩
        · left; exact List.mem_cons_of_mem _ h3
        · right; exact ⟨r0, List.mem_cons_of_mem _ hr0, he⟩

theorem mem_recordRun (runs : List RawRun) (frames : List Nat) (r2 : RawRun)
    (h : r2 ∈ recordRun runs frames) :
    r2 ∈ runs ∨ (∃ r0 ∈ runs, r2 = ⟨r0.depth, r0.frames, r0.count + 1⟩) ∨
      r2 = ⟨frames.length, frames.reverse, 1⟩ := by
  rcases List.eq_nil_or_concat runs with rfl | ⟨init, r, rfl⟩
  · rw [recordRun_nil] at h
    simp at h
    right; right; exact h
  · rw [List.concat_eq_append] at h ⊢
    rw [recordRun_concat] at h
    by_cases hm : runMatches r frames = true
    · rw [if_pos hm] at h
      rcases mem_bumpLast _ _ h with h1 | h1
      · left; exact h1
      · right; left; exact h1
    · rw [if_neg hm] at h
      rcases List.mem_append.1 h with h1 | h1
      · left; exact h1
      · right; right; simpa using h1

theorem wfRuns_recordRun (runs : List RawRun) (frames : List Nat)
    (h : wfRuns runs) : wfRuns (recordRun runs frames) := by
  intro r2 hr2
  rcases mem_recordRun runs frames r2 hr2 with h1 | ⟨r0, hr0, he⟩ | he
  · exact h r2 h1
  · rw [he]
    exact h r0 hr0
  · rw [he]
    simp

theorem posCounts_recordRun (runs : List RawRun) (frames : List Nat)
    (h : ∀ r ∈ runs, 1 ≤ r.count) : ∀ r ∈ recordRun runs frames, 1 ≤ r.count := by
  intro r2 hr2
  rcases mem_recordRun runs frames r2 hr2 with h1 | ⟨r0, hr0, he⟩ | he
  · exact h r2 h1
  · rw [he]; simp
  · rw [he]

theorem decodeRaw_nil : decodeRaw [] = [] := by
  rw [decodeRaw]

theorem decodeRaw_cons (d : Nat) (rest : List Nat) (c : Nat) (rest2 : List Nat)
    (h : rest.drop d = c :: rest2) :
    decodeRaw (d :: rest) = ⟨d, rest.take d, c⟩ :: decodeRaw rest2 := by
  rw [decodeRaw]
  split
  next heq => rw [h] at heq; cases heq
  next c2 rest3 heq =>
    rw [h] at heq
    injection heq with h1 h2
    subst h1
    subst h2
    rfl

theorem decodeRaw_flattenRuns (runs : List RawRun) (hwf : wfRuns runs) :
    decodeRaw (flattenRuns runs) = runs := by
  induction runs with
  | nil => exact decodeRaw_nil
  | cons r rest ih =>
    have hd : r.depth = r.frames.length := hwf r (by simp)
    have hdrop : (r.frames ++ r.count :: flattenRuns rest).drop r.depth =
        r.count :: flattenRuns rest := by
      rw [hd, List.drop_left]
    have htake : (r.frames ++ r.count :: flattenRuns rest).take r.depth = r.frames := by
      rw [hd, List.take_left]
    have ih2 := ih (fun r2 hr2 => hwf r2 (List.mem_cons_of_mem _ hr2))
    show decodeRaw (r.depth :: (r.frames ++ r.count :: flattenRuns rest)) = r :: rest
    rw [decodeRaw_cons _ _ _ _ hdrop, htake, ih2]

theorem recordRaw_foldl (fl : List (List Nat)) :
    ∀ (runs : List RawRun), wfRuns runs →
      fl.foldl recordRaw (flattenRuns runs, idxOf runs) =
        (flattenRuns (fl.foldl recordRun runs), idxOf (fl.foldl recordRun runs)) := by
  induction fl with
  | nil => intro runs _; rfl
  | cons f fl2 ih =>
    intro runs h
    simp only [List.foldl_cons]
    rw [recordRaw_flatten runs f h]
    exact ih _ (wfRuns_recordRun _ _ h)

theorem wfRuns_recordedRuns (fl : List (List Nat)) :
    ∀ runs, wfRuns runs → wfRuns (fl.foldl recordRun runs) := by
  induction fl with
  | nil => intro runs h; exact h
  | cons f fl2 ih =>
    intro runs h
    exact ih _ (wfRuns_recordRun _ _ h)

theorem posCounts_recordedRuns (fl : List (List Nat)) :
    ∀ runs, (∀ r ∈ runs, 1 ≤ r.count) →
      ∀ r ∈ fl.foldl recordRun runs, 1 ≤ r.count := by
  induction fl with
  | nil => intro runs h; exact h
  | cons f fl2 ih =>
    intro runs h
    exact ih _ (posCounts_recordRun _ _ h)

theorem recordRaw_fold_init (fl : List (List Nat)) :
    fl.foldl recordRaw ([], 0) =
      (flattenRuns (recordedRuns fl), idxOf (recordedRuns fl)) := by
  have h0 : (([], 0) : List Nat × Nat) = (flattenRuns [], idxOf []) := rfl
  rw [h0]
  exact recordRaw_foldl fl [] (by intro r hr; cases hr)

theorem decodeRaw_recordedRuns (fl : List (List Nat)) :
    decodeRaw (flattenRuns (recordedRuns fl)) = recordedRuns fl :=
  decodeRaw_flattenRuns _ (wfRuns_recordedRuns fl [] (by intro r hr; cases hr))

/-! ### State projections of `processSample` and generic fold preservation -/

@[simp] theorem processSample_signals (s : ProfileState) (st : Stack) :
    (processSample s st).overall_signals = s.overall_signals := by
  cases h : s.raw <;> simp [processSample, h]

@[simp] theorem processSample_samples (s : ProfileState) (st : Stack) :
    (processSample s st).overall_samples = s.overall_samples := by
  cases h : s.raw <;> simp [processSample, h]

@[simp] theorem processSample_gc (s : ProfileState) (st : Stack) :
    (processSample s st).during_gc = s.during_gc := by
  cases h : s.raw <;> simp [processSample, h]

@[simp] theorem processSample_live (s : ProfileState) (st : Stack) :
    (processSample s st).frames_heap_live = s.frames_heap_live := by
  cases h : s.raw <;> simp [processSample, h]

@[simp] theorem processSample_mode (s : ProfileState) (st : Stack) :
    (processSample s st).mode = s.mode := by
  cases h : s.raw <;> simp [processSample, h]

@[simp] theorem processSample_running (s : ProfileState) (st : Stack) :
    (processSample s st).running = s.running := by
  cases h : s.raw <;> simp [processSample, h]

@[simp] theorem processSample_aggregate (s : ProfileState) (st : Stack) :
    (processSample s st).aggregate = s.aggregate := by
  cases h : s.raw <;> simp [processSample, h]

@[simp] theorem processSample_rawFlag (s : ProfileState) (st : Stack) :
    (processSample s st).raw = s.raw := by
  cases h : s.raw <;> simp [processSample, h]

@[simp] theorem processSample_heapAll (s : ProfileState) (st : Stack) :
    (processSample s st).heap_all = s.heap_all := by
  cases h : s.raw <;> simp [processSample, h]

@[simp] theorem processSample_interval (s : ProfileState) (st : Stack) :
    (processSample s st).interval = s.interval := by
  cases h : s.raw <;> simp [processSample, h]

@[simp] theorem processSample_framesD (s : ProfileState) (st : Stack) :
    (processSample s st).frames = some (aggStack s.aggregate (s.frames.getD []) st) := by
  cases h : s.raw <;> simp [processSample, h]

theorem processSample_rawPair (s : ProfileState) (st : Stack) (h : s.raw = true) :
    ((processSample s st).raw_samples, (processSample s st).raw_sample_index) =
      recordRaw (s.raw_samples, s.raw_sample_index) (st.map Prod.fst) := by
  simp [processSample, h]

theorem processSample_rawKeep (s : ProfileState) (st : Stack) (h : s.raw = false) :
    (processSample s st).raw_samples = s.raw_samples ∧
      (processSample s st).raw_sample_index = s.raw_sample_index := by
  simp [processSample, h]

theorem foldl_proj {α γ : Type} (g : ProfileState → α → ProfileState)
    (proj : ProfileState → γ) (hp : ∀ s a, proj (g s a) = proj s) :
    ∀ (l : List α) (s : ProfileState), proj (l.foldl g s) = proj s := by
  intro l
  induction l with
  | nil => intro s; rfl
  | cons a l2 ih => intro s; rw [List.foldl_cons, ih, hp]

theorem length_updateTbl_le {β : Type} (tbl : List (Nat × β)) (k : Nat)
    (g : Option β → β) : (updateTbl tbl k g).length ≤ tbl.length + 1 := by
  induction tbl with
  | nil => simp [updateTbl]
  | cons hd rest ih =>
    obtain ⟨k0, v⟩ := hd
    by_cases h : k0 = k
    · simp [updateTbl, h]
    · simp only [updateTbl, if_neg h, List.length_cons]
      omega

theorem length_updateTbl_of_lookup {β : Type} (tbl : List (Nat × β)) (k : Nat)
    (g : Option β → β) (v : β) (h : lookupTbl tbl k = some v) :
    (updateTbl tbl k g).length = tbl.length := by
  induction tbl with
  | nil => simp [lookupTbl] at h
  | cons hd rest ih =>
    obtain ⟨k0, w⟩ := hd
    by_cases h1 : k0 = k
    · simp [updateTbl, h1]
    · simp only [lookupTbl, if_neg h1] at h
      simp [updateTbl, if_neg h1, ih h]

/-! ### Raw log contents of a processed sample sequence -/

theorem foldl_processSample_rawPair (sl : List Stack) :
    ∀ (s : ProfileState), s.raw = true →
      ((sl.foldl processSample s).raw_samples,
        (sl.foldl processSample s).raw_sample_index) =
        sl.foldl (fun p st => recordRaw p (st.map Prod.fst))
          (s.raw_samples, s.raw_sample_index) := by
  induction sl with
  | nil => intro s _; rfl
  | cons st sl2 ih =>
    intro s h
    simp only [List.foldl_cons]
    rw [ih (processSample s st) (by rw [processSample_rawFlag]; exact h)]
    rw [processSample_rawPair s st h]

theorem foldl_recordRaw_map (sl : List Stack) :
    ∀ (p : List Nat × Nat),
      sl.foldl (fun q st => recordRaw q (st.map Prod.fst)) p =
        (sl.map (List.map Prod.fst)).foldl recordRaw p := by
  induction sl with
  | nil => intro p; rfl
  | cons st sl2 ih => intro p; simp only [List.foldl_cons, List.map_cons, ih]

theorem rawBuffer_of_fold (sl : List Stack) (s : ProfileState)
    (hraw : s.raw = true) (hbuf : s.raw_samples = []) (hidx : s.raw_sample_index = 0) :
    (sl.foldl processSample s).raw_samples =
        flattenRuns (recordedRuns (sl.map (List.map Prod.fst))) ∧
      (sl.foldl processSample s).raw_sample_index =
        idxOf (recordedRuns (sl.map (List.map Prod.fst))) := by
  have h1 := foldl_processSample_rawPair sl s hraw
  rw [hbuf, hidx] at h1
  rw [foldl_recordRaw_map] at h1
  rw [recordRaw_fold_init] at h1
  exact ⟨congrArg Prod.fst h1, congrArg Prod.snd h1⟩

theorem decode_rawBuffer_of_fold (sl : List Stack) (s : ProfileState)
    (hraw : s.raw = true) (hbuf : s.raw_samples = []) (hidx : s.raw_sample_index = 0) :
    decodeRaw ((sl.foldl processSample s).raw_samples) =
      recordedRuns (sl.map (List.map Prod.fst)) := by
  rw [(rawBuffer_of_fold sl s hraw hbuf hidx).1]
  exact decodeRaw_recordedRuns _

/-! ### Frame table contents of a processed sample sequence -/

theorem foldl_processSample_frames (sl : List Stack) :
    ∀ (s : ProfileState),
      (sl.foldl processSample s).frames.getD [] =
        sl.foldl (aggStack s.aggregate) (s.frames.getD []) := by
  induction sl with
  | nil => intro s; rfl
  | cons st sl2 ih =>
    intro s
    simp only [List.foldl_cons]
    rw [ih (processSample s st)]
    rw [processSample_aggregate, processSample_framesD]
    rfl

theorem totalOf_foldl_aggStack (a : Bool) (sl : List Stack) :
    ∀ (tbl : FramesTbl) (F : Nat),
      totalOf (sl.foldl (aggStack a) tbl) F = totalOf tbl F + totalOccurrences sl F := by
  induction sl with
  | nil => intro tbl F; simp [totalOccurrences]
  | cons st sl2 ih =>
    intro tbl F
    simp only [List.foldl_cons, ih, totalOf_aggStack, totalOccurrences, List.map_cons,
      List.sum_cons]
    omega

theorem callerOf_foldl_aggStack (a : Bool) (sl : List Stack) :
    ∀ (tbl : FramesTbl) (F : Nat),
      callerOf (sl.foldl (aggStack a) tbl) F = callerOf tbl F + leafStacks sl F := by
  induction sl with
  | nil => intro tbl F; simp [leafStacks]
  | cons st sl2 ih =>
    intro tbl F
    simp only [List.foldl_cons, ih, callerOf_aggStack, leafStacks, List.countP_cons]
    cases st with
    | nil => simp
    | cons q rest =>
      simp only [List.head?]
      by_cases h : q.1 = F
      · simp [h]
        omega
      · simp [h]

/-! ### Shape equations for the handlers (zeta-reduced forms) -/

theorem signalHandler_gcTrue (s : ProfileState) (j : Bool) (st : Stack) :
    signalHandler s true j st =
      { s with overall_signals := s.overall_signals + 1,
               during_gc := s.during_gc + 1,
               overall_samples := s.overall_samples + 1 } := rfl

theorem signalHandler_jobRun (s : ProfileState) (st : Stack) :
    signalHandler s false true st =
      jobHandler { s with overall_signals := s.overall_signals + 1 } st := rfl

theorem signalHandler_jobSkip (s : ProfileState) (st : Stack) :
    signalHandler s false false st =
      { s with overall_signals := s.overall_signals + 1 } := rfl

theorem recordSample_eq (s : ProfileState) (st : Stack) :
    recordSample s st =
      if s.mode = Mode.heap then { s with overall_samples := s.overall_samples + 1 }
      else processSample { s with overall_samples := s.overall_samples + 1 } st := rfl

theorem newobjHandler_eq (s : ProfileState) (st : Stack) :
    newobjHandler s st =
      if throttled { s with overall_signals := s.overall_signals + 1 } then
        { s with overall_signals := s.overall_signals + 1 }
      else jobHandler { s with overall_signals := s.overall_signals + 1 } st := rfl

theorem newobjHandlerHeap_eq (s : ProfileState) (obj : Nat) (st : Stack) :
    newobjHandlerHeap s obj st =
      if throttled { s with overall_signals := s.overall_signals + 1 } then
        { s with overall_signals := s.overall_signals + 1 }
      else
        { s with overall_signals := s.overall_signals + 1,
                 overall_samples := s.overall_samples + 1,
                 frames_heap_live := updateTbl s.frames_heap_live obj
                   (fun _ => ⟨obj, st, true⟩) } := rfl

theorem stopOp_eq (s : ProfileState) :
    stopOp s =
      if s.running then
        if s.mode = Mode.heap then
          (true, { (s.frames_heap_live.foldl (fun t kv => processSample t kv.2.stack)
                      { s with running := false }) with frames_heap_live := [] })
        else (true, { s with running := false })
      else (false, s) := rfl

theorem sampleOp_snd (s : ProfileState) (st : Stack) :
    (sampleOp s st).2 =
      if s.running then jobHandler { s with overall_signals := s.overall_signals + 1 } st
      else s := by
  by_cases hr : s.running = true
  · simp [sampleOp, hr]
  · simp [sampleOp, hr]

/-! ### Counter effects of the handlers -/

theorem recordSample_effects (s : ProfileState) (st : Stack) :
    (recordSample s st).overall_signals = s.overall_signals ∧
      (recordSample s st).overall_samples = s.overall_samples + 1 ∧
      (recordSample s st).during_gc = s.during_gc ∧
      (recordSample s st).frames_heap_live = s.frames_heap_live ∧
      (recordSample s st).mode = s.mode ∧
      (recordSample s st).running = s.running := by
  by_cases hm : s.mode = Mode.heap
  · rw [recordSample_eq, if_pos hm]
    exact ⟨rfl, rfl, rfl, rfl, rfl, rfl⟩
  · rw [recordSample_eq, if_neg hm]
    refine ⟨?_, ?_, ?_, ?_, ?_, ?_⟩ <;> simp

theorem jobHandler_effects (s : ProfileState) (st : Stack) :
    (jobHandler s st).overall_signals = s.overall_signals ∧
      ((jobHandler s st).overall_samples = s.overall_samples ∨
        (jobHandler s st).overall_samples = s.overall_samples + 1) ∧
      (jobHandler s st).during_gc = s.during_gc ∧
      (jobHandler s st).frames_heap_live = s.frames_heap_live ∧
      (jobHandler s st).mode = s.mode := by
  by_cases hr : s.running = true
  · unfold jobHandler
    rw [if_pos hr]
    obtain ⟨e1, e2, e3, e4, e5, -⟩ := recordSample_effects s st
    exact ⟨e1, Or.inr e2, e3, e4, e5⟩
  · unfold jobHandler
    rw [if_neg hr]
    exact ⟨rfl, Or.inl rfl, rfl, rfl, rfl⟩

theorem resultsOp_effects (s : ProfileState) :
    (resultsOp s).2.overall_signals = s.overall_signals ∧
      (resultsOp s).2.overall_samples = s.overall_samples ∧
      (resultsOp s).2.during_gc = s.during_gc ∧
      (resultsOp s).2.mode = s.mode ∧
      (resultsOp s).2.frames_heap_live = s.frames_heap_live := by
  unfold resultsOp
  cases hf : s.frames with
  | none => exact ⟨rfl, rfl, rfl, rfl, rfl⟩
  | some tbl =>
    by_cases hr : s.running = true
    · refine ⟨?_, ?_, ?_, ?_, ?_⟩ <;> simp [hr]
    · by_cases hraw : s.raw = true ∧ s.raw_samples ≠ []
      · refine ⟨?_, ?_, ?_, ?_, ?_⟩ <;> simp [hr, hraw.1, hraw.2]
      · refine ⟨?_, ?_, ?_, ?_, ?_⟩ <;> simp [hr, hraw]

/-! ### The counter invariant is preserved by every operation -/

theorem step_preserves_inv (s : ProfileState) (op : Op)
    (h1 : s.overall_samples ≤ s.overall_signals)
    (h2 : s.during_gc ≤ s.overall_samples)
    (h3 : s.mode = Mode.heap → s.during_gc = 0)
    (h4 : s.frames_heap_live.length ≤ s.overall_samples) :
    (step s op).overall_samples ≤ (step s op).overall_signals ∧
      (step s op).during_gc ≤ (step s op).overall_samples ∧
      ((step s op).mode = Mode.heap → (step s op).during_gc = 0) ∧
      (step s op).frames_heap_live.length ≤ (step s op).overall_samples := by
  cases op with
  | signal g j st =>
    simp only [step]
    by_cases hg : s.running = true ∧ (s.mode = Mode.wall ∨ s.mode = Mode.cpu)
    · rw [if_pos hg]
      have hnh : ¬s.mode = Mode.heap := by
        intro hc
        rcases hg.2 with hh | hh <;> rw [hc] at hh <;> cases hh
      cases g with
      | true =>
        rw [signalHandler_gcTrue]
        refine ⟨by simp; omega, by simp; omega, ?_, by simp; omega⟩
        simp only []
        intro hh
        exact absurd hh hnh
      | false =>
        cases j with
        | true =>
          rw [signalHandler_jobRun]
          obtain ⟨e1, e2, e3, e4, e5⟩ :=
            jobHandler_effects { s with overall_signals := s.overall_signals + 1 } st
          refine ⟨?_, ?_, ?_, ?_⟩
          · rcases e2 with e2 | e2 <;> rw [e1, e2] <;> simp <;> omega
          · rcases e2 with e2 | e2 <;> rw [e3, e2] <;> simp <;> omega
          · intro hh
            rw [e5] at hh
            simp at hh
            exact absurd hh hnh
          · rcases e2 with e2 | e2 <;> rw [e4, e2] <;> simp <;> omega
        | false =>
          rw [signalHandler_jobSkip]
          refine ⟨by simp; omega, by simp; omega, ?_, by simp; omega⟩
          simp only []
          intro hh
          exact absurd hh hnh
    · rw [if_neg hg]
      exact ⟨h1, h2, h3, h4⟩
  | objAlloc st =>
    simp only [step]
    by_cases hg : s.running = true ∧ s.mode = Mode.object
    · rw [if_pos hg]
      have hnh : ¬s.mode = Mode.heap := by
        intro hc
        rw [hc] at hg
        cases hg.2
      rw [newobjHandler_eq]
      by_cases ht : throttled { s with overall_signals := s.overall_signals + 1 } = true
      · rw [if_pos ht]
        refine ⟨by simp; omega, by simp; omega, ?_, by simp; omega⟩
        simp only []
        intro hh
        exact absurd hh hnh
      · rw [if_neg ht]
        obtain ⟨e1, e2, e3, e4, e5⟩ :=
          jobHandler_effects { s with overall_signals := s.overall_signals + 1 } st
        refine ⟨?_, ?_, ?_, ?_⟩
        · rcases e2 with e2 | e2 <;> rw [e1, e2] <;> simp <;> omega
        · rcases e2 with e2 | e2 <;> rw [e3, e2] <;> simp <;> omega
        · intro hh
          rw [e5] at hh
          simp at hh
          exact absurd hh hnh
        · rcases e2 with e2 | e2 <;> rw [e4, e2] <;> simp <;> omega
    · rw [if_neg hg]
      exact ⟨h1, h2, h3, h4⟩
  | heapAlloc o st =>
    simp only [step]
    by_cases hg : s.running = true ∧ s.mode = Mode.heap
    · rw [if_pos hg]
      have hgc : s.during_gc = 0 := h3 hg.2
      rw [newobjHandlerHeap_eq]
      by_cases ht : throttled { s with overall_signals := s.overall_signals + 1 } = true
      · rw [if_pos ht]
        exact ⟨by simp; omega, by simp; omega, fun _ => hgc, by simp; omega⟩
      · rw [if_neg ht]
        refine ⟨by simp; omega, by simp; omega, fun _ => hgc, ?_⟩
        have hlen := length_updateTbl_le s.frames_heap_live o
          (fun _ => (⟨o, st, true⟩ : AllocationInfo))
        simp only []
        omega
    · rw [if_neg hg]
      exact ⟨h1, h2, h3, h4⟩
  | heapFree o =>
    simp only [step]
    by_cases hg : s.running = true ∧ s.mode = Mode.heap
    · rw [if_pos hg]
      have hgc : s.during_gc = 0 := h3 hg.2
      unfold freeobjHandlerHeap
      cases heq : lookupTbl s.frames_heap_live o with
      | none => exact ⟨h1, h2, h3, h4⟩
      | some info =>
        by_cases hha : s.heap_all = true
        · have hlen := length_updateTbl_of_lookup s.frames_heap_live o
            (fun _ => ({ info with living := false } : AllocationInfo)) info heq
          refine ⟨?_, ?_, ?_, ?_⟩
          · simp [hha]; omega
          · simp [hha]; omega
          · intro hh; simp [hha, hgc]
          · simp [hha]; omega
        · have hlen := length_removeTbl s.frames_heap_live o info heq
          refine ⟨?_, ?_, ?_, ?_⟩
          · simp [hha]; omega
          · simp [hha, hgc]
          · intro hh; simp [hha, hgc]
          · simp [hha]; omega
    · rw [if_neg hg]
      exact ⟨h1, h2, h3, h4⟩
  | sample st =>
    simp only [step]
    rw [sampleOp_snd]
    by_cases hr : s.running = true
    · rw [if_pos hr]
      obtain ⟨e1, e2, e3, e4, e5⟩ :=
        jobHandler_effects { s with overall_signals := s.overall_signals + 1 } st
      refine ⟨?_, ?_, ?_, ?_⟩
      · rcases e2 with e2 | e2 <;> rw [e1, e2] <;> simp <;> omega
      · rcases e2 with e2 | e2 <;> rw [e3, e2] <;> simp <;> omega
      · intro hh
        rw [e5] at hh
        simp at hh
        rw [e3]
        simp only []
        exact h3 hh
      · rcases e2 with e2 | e2 <;> rw [e4, e2] <;> simp <;> omega
    · rw [if_neg hr]
      exact ⟨h1, h2, h3, h4⟩
  | stop =>
    simp only [step]
    rw [stopOp_eq]
    by_cases hr : s.running = true
    · rw [if_pos hr]
      by_cases hm : s.mode = Mode.heap
      · rw [if_pos hm]
        have e1 := foldl_proj (fun t kv => processSample t kv.2.stack)
          (fun t => t.overall_signals) (fun t a => processSample_signals t a.2.stack)
          s.frames_heap_live { s with running := false }
        have e2 := foldl_proj (fun t kv => processSample t kv.2.stack)
          (fun t => t.overall_samples) (fun t a => processSample_samples t a.2.stack)
          s.frames_heap_live { s with running := false }
        have e3 := foldl_proj (fun t kv => processSample t kv.2.stack)
          (fun t => t.during_gc) (fun t a => processSample_gc t a.2.stack)
          s.frames_heap_live { s with running := false }
        refine ⟨?_, ?_, ?_, ?_⟩
        · show (List.foldl (fun t kv => processSample t kv.2.stack)
              { s with running := false } s.frames_heap_live).overall_samples ≤
            (List.foldl (fun t kv => processSample t kv.2.stack)
              { s with running := false } s.frames_heap_live).overall_signals
          rw [e1, e2]
          exact h1
        · show (List.foldl (fun t kv => processSample t kv.2.stack)
              { s with running := false } s.frames_heap_live).during_gc ≤
            (List.foldl (fun t kv => processSample t kv.2.stack)
              { s with running := false } s.frames_heap_live).overall_samples
          rw [e3, e2]
          exact h2
        · intro hh
          show (List.foldl (fun t kv => processSample t kv.2.stack)
              { s with running := false } s.frames_heap_live).during_gc = 0
          rw [e3]
          exact h3 hm
        · show ([] : List (Nat × AllocationInfo)).length ≤
            (List.foldl (fun t kv => processSample t kv.2.stack)
              { s with running := false } s.frames_heap_live).overall_samples
          simp
      · rw [if_neg hm]
        exact ⟨h1, h2, h3, h4⟩
    · rw [if_neg hr]
      exact ⟨h1, h2, h3, h4⟩
  | results =>
    simp only [step]
    obtain ⟨e1, e2, e3, e4, e5⟩ := resultsOp_effects s
    refine ⟨?_, ?_, ?_, ?_⟩
    · rw [e1, e2]; exact h1
    · rw [e3, e2]; exact h2
    · intro hh
      rw [e4] at hh
      rw [e3]
      exact h3 hh
    · rw [e5, e2]; exact h4

theorem runOps_inv (ops : List Op) :
    ∀ (s : ProfileState),
      s.overall_samples ≤ s.overall_signals →
      s.during_gc ≤ s.overall_samples →
      (s.mode = Mode.heap → s.during_gc = 0) →
      s.frames_heap_live.length ≤ s.overall_samples →
      (runOps s ops).overall_samples ≤ (runOps s ops).overall_signals ∧
        (runOps s ops).during_gc ≤ (runOps s ops).overall_samples ∧
        ((runOps s ops).mode = Mode.heap → (runOps s ops).during_gc = 0) ∧
        (runOps s ops).frames_heap_live.length ≤ (runOps s ops).overall_samples := by
  induction ops with
  | nil => intro s h1 h2 h3 h4; exact ⟨h1, h2, h3, h4⟩
  | cons op ops2 ih =>
    intro s h1 h2 h3 h4
    obtain ⟨g1, g2, g3, g4⟩ := step_preserves_inv s op h1 h2 h3 h4
    exact ih (step s op) g1 g2 g3 g4

/-! ### Packed per-line counters: exact characterization of the word -/

theorem lineWordOf_aggStep_hit (i0 : Bool) (p F L : Nat) (tbl : FramesTbl)
    (hL : 0 < L) :
    lineWordOf (aggStep true i0 p F L tbl) F L =
      some (((lineWordOf tbl F L).getD 0 +
        (if i0 then halfWord + 1 else halfWord)) % wordSize) := by
  unfold lineWordOf aggStep
  rw [lookupTbl_updateTbl, if_pos rfl, Option.some_bind]
  rw [aggUpdate_lines, if_pos ⟨rfl, hL⟩, Option.getD_some]
  unfold incTbl
  rw [lookupTbl_updateTbl, if_pos rfl]
  cases hfd : lookupTbl tbl F with
  | none => simp [hfd, zeroFrameData, lookupTbl]
  | some fd =>
    simp only [Option.getD_some, Option.some_bind]
    cases ho : lookupTbl (fd.lines.getD []) L with
    | none => simp [ho]
    | some w0 => simp [ho]

theorem lineWordOf_aggStep_miss (i0 : Bool) (p f l F L : Nat) (tbl : FramesTbl)
    (hmiss : ¬(f = F ∧ l = L)) :
    lineWordOf (aggStep true i0 p f l tbl) F L = lineWordOf tbl F L := by
  by_cases hF : F = f
  · subst hF
    have hlL : ¬l = L := fun hh => hmiss ⟨rfl, hh⟩
    have hLl : ¬L = l := fun hh => hlL hh.symm
    unfold lineWordOf aggStep
    rw [lookupTbl_updateTbl, if_pos rfl, Option.some_bind]
    rw [aggUpdate_lines]
    by_cases hc : 0 < l
    · rw [if_pos ⟨rfl, hc⟩, Option.getD_some]
      unfold incTbl
      rw [lookupTbl_updateTbl, if_neg hLl]
      cases hfd : lookupTbl tbl F with
      | none => simp [hfd, zeroFrameData, lookupTbl]
      | some fd => simp [hfd]
    · rw [if_neg (fun hx : (true = true) ∧ 0 < l => hc hx.2)]
      cases hfd : lookupTbl tbl F with
      | none => simp [hfd, zeroFrameData, lookupTbl]
      | some fd => simp [hfd]
  · unfold lineWordOf aggStep
    rw [lookupTbl_updateTbl, if_neg hF]

theorem lineContrib_eq (st : Stack) :
    ∀ (i0 : Bool) (F L : Nat),
      lineContrib i0 st F L =
        lineHitsStack st F L * halfWord +
          (if i0 ∧ leafMatch st F L = true then 1 else 0) := by
  induction st with
  | nil => intro i0 F L; simp [lineContrib, lineHitsStack, leafMatch]
  | cons q rest ih =>
    intro i0 F L
    obtain ⟨f, l⟩ := q
    simp only [lineContrib, ih false F L, lineHitsStack, List.countP_cons, leafMatch,
      List.head?]
    by_cases hm : f = F ∧ l = L
    · simp only [if_pos hm, hm, decide_true_eq_true, and_true]
      cases i0 with
      | true =>
        simp only [if_pos rfl, and_true, if_true]
        simp [lineHitsStack]
        ring
      | false =>
        simp only [Bool.false_eq_true, false_and, if_false, and_false]
        simp [lineHitsStack]
        ring
    · have hd : decide (f = F ∧ l = L) = false := by
        simp [hm]
      simp [hm, hd, lineHitsStack]

theorem leafMatch_le_hits (st : Stack) (F L : Nat) :
    (if leafMatch st F L = true then 1 else 0) ≤ lineHitsStack st F L := by
  cases st with
  | nil => simp [leafMatch, lineHitsStack]
  | cons q rest =>
    simp only [leafMatch, List.head?, lineHitsStack, List.countP_cons]
    by_cases hm : q.1 = F ∧ q.2 = L
    · simp [hm]
    · simp [hm]

theorem leafLineHits_le_lineHits (sl : List Stack) (F L : Nat) :
    leafLineHits sl F L ≤ lineHits sl F L := by
  induction sl with
  | nil => simp [leafLineHits, lineHits]
  | cons st sl2 ih =>
    simp only [leafLineHits, lineHits, List.countP_cons, List.map_cons,
      List.sum_cons] at ih ⊢
    have hst := leafMatch_le_hits st F L
    by_cases hb : leafMatch st F L = true
    · simp only [hb, if_true] at hst ⊢
      omega
    · simp only [hb, Bool.false_eq_true, if_false] at hst ⊢
      omega

theorem lineWordOf_aggGo_char (st : Stack) :
    ∀ (i0 : Bool) (p : Nat) (tbl : FramesTbl) (F L : Nat), 0 < L →
      lineWordOf (aggGo true i0 p st tbl) F L =
        if lineContrib i0 st F L = 0 then lineWordOf tbl F L
        else some (((lineWordOf tbl F L).getD 0 +
          lineContrib i0 st F L) % wordSize) := by
  induction st with
  | nil => intro i0 p tbl F L hL; simp [aggGo, lineContrib]
  | cons q rest ih =>
    intro i0 p tbl F L hL
    obtain ⟨f, l⟩ := q
    simp only [aggGo]
    rw [ih false f (aggStep true i0 p f l tbl) F L hL]
    by_cases hm : f = F ∧ l = L
    · obtain ⟨rfl, rfl⟩ := hm
      rw [lineWordOf_aggStep_hit i0 p f l tbl hL]
      simp only [Option.getD_some, lineContrib]
      simp only [and_self, if_true]
      have hinc : (if i0 = true then halfWord + 1 else halfWord) ≠ 0 := by
        cases i0 <;> norm_num [halfWord]
      by_cases hcR : lineContrib false rest f l = 0
      · rw [if_pos hcR, hcR]
        have hne : (if i0 = true then halfWord + 1 else halfWord) + 0 ≠ 0 := by omega
        rw [if_neg hne]
        simp
      · rw [if_neg hcR]
        have hne : (if i0 = true then halfWord + 1 else halfWord) +
            lineContrib false rest f l ≠ 0 := by omega
        rw [if_neg hne]
        rw [Nat.mod_add_mod, Nat.add_assoc]
    · rw [lineWordOf_aggStep_miss i0 p f l F L tbl hm]
      simp only [lineContrib, if_neg hm, Nat.zero_add]

theorem lineWordOf_foldl_aggStack_char (sl : List Stack) :
    ∀ (tbl : FramesTbl) (F L : Nat), 0 < L →
      lineWordOf (sl.foldl (aggStack true) tbl) F L =
        if lineHits sl F L = 0 then lineWordOf tbl F L
        else some (((lineWordOf tbl F L).getD 0 +
          (lineHits sl F L * halfWord + leafLineHits sl F L)) % wordSize) := by
  induction sl with
  | nil => intro tbl F L hL; simp [lineHits, leafLineHits]
  | cons st sl2 ih =>
    intro tbl F L hL
    simp only [List.foldl_cons]
    rw [ih (aggStack true tbl st) F L hL]
    have hchar := lineWordOf_aggGo_char st true 0 tbl F L hL
    rw [show aggGo true true 0 st tbl = aggStack true tbl st from rfl] at hchar
    rw [lineContrib_eq st true F L] at hchar
    simp only [true_and] at hchar
    have hlh : lineHits (st :: sl2) F L =
        lineHitsStack st F L + lineHits sl2 F L := by
      simp [lineHits]
    have hll : leafLineHits (st :: sl2) F L =
        leafLineHits sl2 F L + (if leafMatch st F L = true then 1 else 0) := by
      simp [leafLineHits, List.countP_cons]
    rw [hlh, hll]
    by_cases h1 : lineHitsStack st F L = 0
    · have hind : (if leafMatch st F L = true then 1 else 0) = 0 := by
        have := leafMatch_le_hits st F L
        omega
    
      rw [h1, hind] at hchar
      simp only [Nat.zero_mul, Nat.zero_add, Nat.add_zero, if_pos rfl] at hchar
      rw [hchar, h1, hind]
      simp
    · have hhw : 0 < halfWord := by norm_num [halfWord]
      have hc1 : lineHitsStack st F L * halfWord +
          (if leafMatch st F L = true then 1 else 0) ≠ 0 := by
        have hpos : 0 < lineHitsStack st F L * halfWord :=
          Nat.mul_pos (Nat.pos_of_ne_zero h1) hhw
        omega
      rw [if_neg hc1] at hchar
      rw [hchar]
      simp only [Option.getD_some]
      have hne : lineHitsStack st F L + lineHits sl2 F L ≠ 0 := by omega
      rw [if_neg hne]
      by_cases h2 : lineHits sl2 F L = 0
      · have hl2 : leafLineHits sl2 F L = 0 := by
          have := leafLineHits_le_lineHits sl2 F L
          omega
        rw [if_pos h2, h2, hl2]
        refine congrArg some (congrArg (fun x => x % wordSize) ?_)
        ring
      · rw [if_neg h2]
        rw [Nat.mod_add_mod]
        refine congrArg some (congrArg (fun x => x % wordSize) ?_)
        ring

/-! ### Sum of caller samples over a sampling run -/

theorem jobHandler_agg (s : ProfileState) (st : Stack) (hr : s.running = true)
    (hm : ¬s.mode = Mode.heap) :
    jobHandler s st = processSample { s with overall_samples := s.overall_samples + 1 } st := by
  unfold jobHandler
  rw [if_pos hr, recordSample_eq, if_neg hm]

theorem sumCaller_processSample (s : ProfileState) (st : Stack) (hst : st ≠ []) :
    sumCaller ((processSample s st).frames.getD []) = sumCaller (s.frames.getD []) + 1 := by
  rw [processSample_framesD, Option.getD_some]
  exact sumCaller_aggStack _ _ _ hst

theorem step_sumCaller (s : ProfileState) (op : Op) (hmode : ¬s.mode = Mode.heap)
    (hop : sampleOpOk op)
    (h : sumCaller (s.frames.getD []) + s.during_gc = s.overall_samples) :
    sumCaller ((step s op).frames.getD []) + (step s op).during_gc =
        (step s op).overall_samples ∧
      (step s op).mode = s.mode := by
  cases op with
  | signal g j st =>
    simp only [step]
    by_cases hg : s.running = true ∧ (s.mode = Mode.wall ∨ s.mode = Mode.cpu)
    · rw [if_pos hg]
      cases g with
      | true =>
        rw [signalHandler_gcTrue]
        refine ⟨?_, rfl⟩
        simp only []
        omega
      | false =>
        cases j with
        | true =>
          rw [signalHandler_jobRun]
          rw [jobHandler_agg { s with overall_signals := s.overall_signals + 1 } st hg.1 hmode]
          refine ⟨?_, by simp⟩
          rw [sumCaller_processSample _ _ hop]
          simp only [processSample_gc, processSample_samples]
          omega
        | false =>
          rw [signalHandler_jobSkip]
          exact ⟨h, rfl⟩
    · rw [if_neg hg]
      exact ⟨h, rfl⟩
  | objAlloc st =>
    simp only [step]
    by_cases hg : s.running = true ∧ s.mode = Mode.object
    · rw [if_pos hg, newobjHandler_eq]
      by_cases ht : throttled { s with overall_signals := s.overall_signals + 1 } = true
      · rw [if_pos ht]
        exact ⟨h, rfl⟩
      · rw [if_neg ht]
        rw [jobHandler_agg { s with overall_signals := s.overall_signals + 1 } st hg.1 hmode]
        refine ⟨?_, by simp⟩
        rw [sumCaller_processSample _ _ hop]
        simp only [processSample_gc, processSample_samples]
        omega
    · rw [if_neg hg]
      exact ⟨h, rfl⟩
  | heapAlloc o st =>
    simp only [step]
    rw [if_neg (fun hg => hmode hg.2)]
    exact ⟨h, rfl⟩
  | heapFree o =>
    simp only [step]
    rw [if_neg (fun hg => hmode hg.2)]
    exact ⟨h, rfl⟩
  | sample st =>
    simp only [step]
    rw [sampleOp_snd]
    by_cases hr : s.running = true
    · rw [if_pos hr]
      rw [jobHandler_agg { s with overall_signals := s.overall_signals + 1 } st hr hmode]
      refine ⟨?_, by simp⟩
      rw [sumCaller_processSample _ _ hop]
      simp only [processSample_gc, processSample_samples]
      omega
    · rw [if_neg hr]
      exact ⟨h, rfl⟩
  | stop =>
    simp only [step]
    rw [stopOp_eq]
    by_cases hr : s.running = true
    · rw [if_pos hr, if_neg hmode]
      exact ⟨h, rfl⟩
    · rw [if_neg hr]
      exact ⟨h, rfl⟩
  | results => exact absurd hop (by simp [sampleOpOk])

theorem runOps_sumCaller (ops : List Op) :
    ∀ (s : ProfileState), ¬s.mode = Mode.heap →
      (∀ op ∈ ops, sampleOpOk op) →
      sumCaller (s.frames.getD []) + s.during_gc = s.overall_samples →
      sumCaller ((runOps s ops).frames.getD []) + (runOps s ops).during_gc =
        (runOps s ops).overall_samples := by
  induction ops with
  | nil => intro s _ _ h; exact h
  | cons op ops2 ih =>
    intro s hmode hops h
    obtain ⟨g1, g2⟩ := step_sumCaller s op hmode (hops op (by simp)) h
    refine ih (step s op) ?_ (fun o ho => hops o (by simp [ho])) g1
    rw [g2]
    exact hmode

/-! ### Last support lemmas for the drain -/

theorem foldl_processSample_frames_some (sl : List Stack) :
    ∀ (s : ProfileState), s.frames.isSome = true →
      ((sl.foldl processSample s).frames).isSome = true := by
  induction sl with
  | nil => intro s h; exact h
  | cons st sl2 ih =>
    intro s _
    refine ih (processSample s st) ?_
    rw [processSample_framesD]
    rfl

theorem resultsOp_some (s : ProfileState) (tbl : FramesTbl) (hf : s.frames = some tbl)
    (hr : s.running = false) (hraw : s.raw = true) :
    ∃ res, (resultsOp s).1 = some res ∧ res.raw.getD [] = s.raw_samples ∧
      (resultsOp s).2.frames = none ∧ res.samples = s.overall_samples ∧
      res.gc_samples = s.during_gc ∧
      res.missed_samples = s.overall_signals - s.overall_samples ∧
      res.frames = tbl.map (fun kv => (kv.1, frameOut kv.2)) := by
  have hrr : ¬s.running = true := by rw [hr]; simp
  unfold resultsOp
  simp only [hf]
  rw [if_neg hrr]
  refine ⟨_, rfl, ?_, ?_, rfl, rfl, rfl, rfl⟩
  · by_cases hb : s.raw_samples = []
    · simp [hb]
    · simp [hraw, hb]
  · by_cases hb2 : s.raw = true ∧ s.raw_samples ≠ [] <;> simp [hb2]

theorem freeobj_found_notAll (s : ProfileState) (obj : Nat) (info : AllocationInfo)
    (hfind : lookupTbl s.frames_heap_live obj = some info) (hha : s.heap_all = false) :
    freeobjHandlerHeap s obj =
      { s with frames_heap_live := removeTbl s.frames_heap_live obj,
               overall_signals := s.overall_signals - 1,
               overall_samples := s.overall_samples - 1 } := by
  unfold freeobjHandlerHeap
  rw [hfind]
  simp only [hha, Bool.false_eq_true, if_false]

theorem countP_replicate {α : Type} (p : α → Bool) (n : Nat) (x : α) :
    (List.replicate n x).countP p = if p x then n else 0 := by
  induction n with
  | zero => simp
  | succ k ih =>
    simp only [List.replicate_succ, List.countP_cons, ih]
    by_cases hp : p x = true
    · simp [hp]
    · simp [hp]

theorem lineHits_cons (st : Stack) (sl : List Stack) (F L : Nat) :
    lineHits (st :: sl) F L = lineHitsStack st F L + lineHits sl F L := by
  simp [lineHits]

theorem lineHits_replicate (n : Nat) (st : Stack) (F L : Nat) :
    lineHits (List.replicate n st) F L = n * lineHitsStack st F L := by
  induction n with
  | zero => simp [lineHits]
  | succ k ih =>
    rw [List.replicate_succ, lineHits_cons, ih]
    ring

theorem leafLineHits_cons (st : Stack) (sl : List Stack) (F L : Nat) :
    leafLineHits (st :: sl) F L =
      leafLineHits sl F L + (if leafMatch st F L = true then 1 else 0) := by
  simp [leafLineHits, List.countP_cons]

theorem leafLineHits_replicate (n : Nat) (st : Stack) (F L : Nat) :
    leafLineHits (List.replicate n st) F L =
      if leafMatch st F L = true then n else 0 := by
  simp [leafLineHits, countP_replicate]

/-! ### The claims -/

/-- Claim C1, counterexample: a recursive stack `[F, F]` (frame 5 twice)
is one captured stack containing frame 5, yet `total_samples` for 5
comes out as 2 — the aggregation loop counts every occurrence. -/
theorem C1_counterexample :
    totalOf ((([[(5, 0), (5, 0)]] : List Stack).foldl processSample
          (initState Mode.custom false true false none)).frames.getD []) 5 ≠
      countStacksContaining [[(5, 0), (5, 0)]] 5 := by
  decide

/-- Claim C1 (amended): for any sequence of aggregated samples and any
frame `F`, `total_samples` equals the total number of occurrences of `F`
across the captured stacks (a stack holding `F` k times contributes k),
and `caller_samples` equals the number of captured stacks whose leaf
(index 0) frame is `F`. -/
theorem C1_totals_and_callers (mode : Mode) (raw agg ha : Bool) (iv : Option Nat)
    (samples : List Stack) (F : Nat) :
    totalOf (((samples.foldl processSample
          (initState mode raw agg ha iv)).frames).getD []) F =
        totalOccurrences samples F ∧
      callerOf (((samples.foldl processSample
          (initState mode raw agg ha iv)).frames).getD []) F =
        leafStacks samples F := by
  rw [foldl_processSample_frames]
  constructor
  · rw [totalOf_foldl_aggStack]
    simp [totalOf, lookupTbl]
  · rw [callerOf_foldl_aggStack]
    simp [callerOf, lookupTbl]

/-- Claim C2, counterexample: one timer signal during garbage collection
increments `overall_samples` (and `during_gc`) without recording any
stack, so the sum of `caller_samples` (0) differs from
`overall_samples` (1). -/
theorem C2_counterexample :
    ¬(sumCaller ((runOps (initState Mode.wall false true false (some 1000))
          [Op.signal true false []]).frames.getD []) =
        (runOps (initState Mode.wall false true false (some 1000))
          [Op.signal true false []]).overall_samples) := by
  decide

/-- Claim C2 (amended): over any sampling run in a non-heap mode in which
every captured stack is non-empty (and no drain occurs), the sum of
`caller_samples` over all frames plus `during_gc` equals
`overall_samples`; signals arriving during garbage collection are
counted in `overall_samples` via `during_gc`, not via any frame. -/
theorem C2_sum_caller_samples (mode : Mode) (raw ha : Bool) (iv : Option Nat)
    (ops : List Op) (hmode : mode ≠ Mode.heap)
    (hops : ∀ op ∈ ops, sampleOpOk op) :
    sumCaller ((runOps (initState mode raw true ha iv) ops).frames.getD []) +
        (runOps (initState mode raw true ha iv) ops).during_gc =
      (runOps (initState mode raw true ha iv) ops).overall_samples := by
  refine runOps_sumCaller ops (initState mode raw true ha iv) ?_ hops rfl
  exact hmode

theorem C2_sum_caller_samples_witness :
    (Mode.wall ≠ Mode.heap ∧
        ∀ op ∈ [Op.signal true false [(1, 2)], Op.signal false true [(1, 2)]],
          sampleOpOk op) ∧
      sumCaller ((runOps (initState Mode.wall false true false (some 1000))
            [Op.signal true false [(1, 2)], Op.signal false true [(1, 2)]]).frames.getD []) +
          (runOps (initState Mode.wall false true false (some 1000))
            [Op.signal true false [(1, 2)], Op.signal false true [(1, 2)]]).during_gc =
        (runOps (initState Mode.wall false true false (some 1000))
          [Op.signal true false [(1, 2)], Op.signal false true [(1, 2)]]).overall_samples :=
  ⟨⟨by decide, by simp [sampleOpOk]⟩,
    C2_sum_caller_samples Mode.wall false false (some 1000)
      [Op.signal true false [(1, 2)], Op.signal false true [(1, 2)]]
      (by decide) (by simp [sampleOpOk])⟩

/-- Claim C3: in Heap mode with `heap_all = false` (and no interval
throttle, so the allocation is sampled), freeing a tracked object
removes its tracker entry and decrements both `overall_signals` and
`overall_samples` by one, so allocate-then-free restores the tracker
and both counters to their pre-allocation values; a free event for an
object never observed as allocated changes nothing. -/
theorem C3_heap_free_retroactive (s : ProfileState) (obj : Nat) (st : Stack)
    (hr : s.running = true) (hm : s.mode = Mode.heap) (hha : s.heap_all = false)
    (hiv : s.interval = none)
    (hnone : lookupTbl s.frames_heap_live obj = none) :
    ((lookupTbl (step s (Op.heapAlloc obj st)).frames_heap_live obj).isSome = true ∧
        (step s (Op.heapAlloc obj st)).overall_signals = s.overall_signals + 1 ∧
        (step s (Op.heapAlloc obj st)).overall_samples = s.overall_samples + 1) ∧
      ((step (step s (Op.heapAlloc obj st)) (Op.heapFree obj)).frames_heap_live =
          s.frames_heap_live ∧
        lookupTbl (step (step s (Op.heapAlloc obj st))
          (Op.heapFree obj)).frames_heap_live obj = none ∧
        (step (step s (Op.heapAlloc obj st)) (Op.heapFree obj)).overall_signals =
          s.overall_signals ∧
        (step (step s (Op.heapAlloc obj st)) (Op.heapFree obj)).overall_samples =
          s.overall_samples) ∧
      (∀ o2, lookupTbl s.frames_heap_live o2 = none → step s (Op.heapFree o2) = s) := by
  have hg : s.running = true ∧ s.mode = Mode.heap := ⟨hr, hm⟩
  have hth : throttled { s with overall_signals := s.overall_signals + 1 } = false := by
    simp [throttled, hiv]
  have h1 : step s (Op.heapAlloc obj st) =
      { s with overall_signals := s.overall_signals + 1,
               overall_samples := s.overall_samples + 1,
               frames_heap_live := updateTbl s.frames_heap_live obj
                 (fun _ => ⟨obj, st, true⟩) } := by
    simp only [step]
    rw [if_pos hg, newobjHandlerHeap_eq, hth]
    simp
  have hlook : lookupTbl (updateTbl s.frames_heap_live obj
      (fun _ => (⟨obj, st, true⟩ : AllocationInfo))) obj =
      some ⟨obj, st, true⟩ := by
    rw [lookupTbl_updateTbl, if_pos rfl]
  have h2 : step (step s (Op.heapAlloc obj st)) (Op.heapFree obj) = s := by
    rw [h1]
    simp only [step]
    rw [if_pos ⟨hr, hm⟩]
    rw [freeobj_found_notAll
      { s with overall_signals := s.overall_signals + 1,
               overall_samples := s.overall_samples + 1,
               frames_heap_live := updateTbl s.frames_heap_live obj
                 (fun _ => ⟨obj, st, true⟩) } obj ⟨obj, st, true⟩ hlook hha]
    rw [removeTbl_updateTbl s.frames_heap_live obj _ hnone]
    simp
  refine ⟨⟨?_, ?_, ?_⟩, ⟨?_, ?_, ?_, ?_⟩, ?_⟩
  · rw [h1]
    simp only []
    rw [hlook]
    rfl
  · rw [h1]
  · rw [h1]
  · rw [h2]
  · rw [h2]
    exact hnone
  · rw [h2]
  · rw [h2]
  · intro o2 h2n
    simp only [step]
    by_cases hg2 : s.running = true ∧ s.mode = Mode.heap
    · rw [if_pos hg2]
      unfold freeobjHandlerHeap
      rw [h2n]
    · rw [if_neg hg2]

theorem C3_heap_free_retroactive_witness :
    lookupTbl (initState Mode.heap false true false none).frames_heap_live 7 = none ∧
      (step (step (initState Mode.heap false true false none) (Op.heapAlloc 7 [(1, 2)]))
          (Op.heapFree 7)).overall_samples =
        (initState Mode.heap false true false none).overall_samples :=
  ⟨rfl, (C3_heap_free_retroactive (initState Mode.heap false true false none) 7 [(1, 2)]
      rfl rfl rfl rfl rfl).2.1.2.2.2⟩

/-- Claim C4: after every sequence of operations in any mode, starting
from a freshly started profiler, `overall_samples <= overall_signals`
and `during_gc <= overall_samples` hold (so
`missed_samples = overall_signals - overall_samples` never underflows). -/
theorem C4_counter_invariants (mode : Mode) (raw agg ha : Bool) (iv : Option Nat)
    (ops : List Op) :
    (runOps (initState mode raw agg ha iv) ops).overall_samples ≤
        (runOps (initState mode raw agg ha iv) ops).overall_signals ∧
      (runOps (initState mode raw agg ha iv) ops).during_gc ≤
        (runOps (initState mode raw agg ha iv) ops).overall_samples := by
  obtain ⟨g1, g2, -, -⟩ := runOps_inv ops (initState mode raw agg ha iv)
    (Nat.le_refl 0) (Nat.le_refl 0) (fun _ => rfl) (Nat.le_refl 0)
  exact ⟨g1, g2⟩

/-- Claim C5: a captured stack identical to the immediately preceding
run (same depth, same frame sequence) increments the repeat count of
that run instead of appending a new run; the concrete scenario of
5 identical stacks followed by one different stack yields exactly two
runs with counts 5 and 1. -/
theorem C5_raw_coalescing :
    decodeRaw ((List.replicate 5 ([(1, 0), (2, 0)] : Stack) ++
          [([(3, 0)] : Stack)]).foldl processSample
          (initState Mode.custom true true false none)).raw_samples =
        [⟨2, [2, 1], 5⟩, ⟨1, [3], 1⟩] ∧
      ∀ (sl : List Stack) (st : Stack) (r : RawRun),
        (recordedRuns (sl.map (List.map Prod.fst))).getLast? = some r →
        runMatches r (st.map Prod.fst) = true →
        recordedRuns ((sl ++ [st]).map (List.map Prod.fst)) =
            bumpLast (recordedRuns (sl.map (List.map Prod.fst))) ∧
          (recordedRuns ((sl ++ [st]).map (List.map Prod.fst))).length =
            (recordedRuns (sl.map (List.map Prod.fst))).length ∧
          decodeRaw (((sl ++ [st]).foldl processSample
              (initState Mode.custom true true false none)).raw_samples) =
            bumpLast (decodeRaw ((sl.foldl processSample
              (initState Mode.custom true true false none)).raw_samples)) := by
  constructor
  · rw [decode_rawBuffer_of_fold _ _ rfl rfl rfl]
    decide
  · intro sl st r hlast hmatch
    have hmap : (sl ++ [st]).map (List.map Prod.fst) =
        sl.map (List.map Prod.fst) ++ [st.map Prod.fst] := by simp
    have hrec : recordedRuns ((sl ++ [st]).map (List.map Prod.fst)) =
        recordRun (recordedRuns (sl.map (List.map Prod.fst))) (st.map Prod.fst) := by
      rw [hmap]
      unfold recordedRuns
      rw [List.foldl_append]
      rfl
    have hbump : recordRun (recordedRuns (sl.map (List.map Prod.fst)))
        (st.map Prod.fst) = bumpLast (recordedRuns (sl.map (List.map Prod.fst))) := by
      unfold recordRun
      rw [hlast]
      simp [hmatch]
    refine ⟨by rw [hrec, hbump], by rw [hrec, hbump, length_bumpLast], ?_⟩
    rw [decode_rawBuffer_of_fold _ _ rfl rfl rfl,
      decode_rawBuffer_of_fold _ _ rfl rfl rfl]
    rw [hrec, hbump]

theorem C5_raw_coalescing_witness :
    ((recordedRuns ([[((1 : Nat), (0 : Nat))]].map (List.map Prod.fst))).getLast? =
          some ⟨1, [1], 1⟩ ∧
        runMatches ⟨1, [1], 1⟩ (([((1 : Nat), (0 : Nat))] : Stack).map Prod.fst) = true) ∧
      recordedRuns (([[((1 : Nat), (0 : Nat))]] ++
          [[((1 : Nat), (0 : Nat))]]).map (List.map Prod.fst)) =
        bumpLast (recordedRuns ([[((1 : Nat), (0 : Nat))]].map (List.map Prod.fst))) :=
  ⟨⟨by decide, by decide⟩,
    ((C5_raw_coalescing.2 [[((1 : Nat), (0 : Nat))]] [((1 : Nat), (0 : Nat))]
      ⟨1, [1], 1⟩ (by decide) (by decide)).1)⟩

/-- Claim C6: for every processed sample sequence, the flat raw buffer
decodes back to exactly the recorded runs (same depth, same frame
sequence, `repeat_count >= 1`), and the results drain attaches exactly
that flat buffer. -/
theorem C6_raw_roundtrip (sl : List Stack) :
    decodeRaw ((sl.foldl processSample
          (initState Mode.custom true true false none)).raw_samples) =
        recordedRuns (sl.map (List.map Prod.fst)) ∧
      (∀ r ∈ recordedRuns (sl.map (List.map Prod.fst)),
        1 ≤ r.count ∧ r.depth = r.frames.length) ∧
      ∃ res, (resultsOp (stopOp (sl.foldl processSample
            (initState Mode.custom true true false none))).2).1 = some res ∧
        res.raw.getD [] = (sl.foldl processSample
          (initState Mode.custom true true false none)).raw_samples := by
  refine ⟨decode_rawBuffer_of_fold sl _ rfl rfl rfl, ?_, ?_⟩
  · intro r hr
    refine ⟨posCounts_recordedRuns _ [] (by simp) r hr, ?_⟩
    exact wfRuns_recordedRuns _ [] (by intro r2 h2; cases h2) r hr
  · have hrun : (sl.foldl processSample
        (initState Mode.custom true true false none)).running = true :=
      (foldl_proj processSample (fun t => t.running) processSample_running sl _).trans rfl
    have hmode : (sl.foldl processSample
        (initState Mode.custom true true false none)).mode = Mode.custom :=
      (foldl_proj processSample (fun t => t.mode) processSample_mode sl _).trans rfl
    have hraw : (sl.foldl processSample
        (initState Mode.custom true true false none)).raw = true :=
      (foldl_proj processSample (fun t => t.raw) processSample_rawFlag sl _).trans rfl
    have hsome := foldl_processSample_frames_some sl
      (initState Mode.custom true true false none) rfl
    obtain ⟨tbl, htbl⟩ := Option.isSome_iff_exists.mp hsome
    have hstop : (stopOp (sl.foldl processSample
        (initState Mode.custom true true false none))).2 =
        { (sl.foldl processSample (initState Mode.custom true true false none)) with
          running := false } := by
      rw [stopOp_eq, if_pos hrun, if_neg (by rw [hmode]; decide)]
    rw [hstop]
    obtain ⟨res, hr1, hr2, -, -, -, -, -⟩ := resultsOp_some
      { (sl.foldl processSample (initState Mode.custom true true false none)) with
        running := false } tbl htbl rfl hraw
    exact ⟨res, hr1, hr2⟩

theorem C6_raw_roundtrip_witness :
    (⟨1, [1], 1⟩ : RawRun) ∈
        recordedRuns ([[((1 : Nat), (0 : Nat))]].map (List.map Prod.fst)) ∧
      1 ≤ (⟨1, [1], 1⟩ : RawRun).count ∧
      (⟨1, [1], 1⟩ : RawRun).depth = (⟨1, [1], 1⟩ : RawRun).frames.length :=
  ⟨by decide,
    (C6_raw_roundtrip [[((1 : Nat), (0 : Nat))]]).2.1 ⟨1, [1], 1⟩ (by decide)⟩

/-- Claim C7, counterexample: after one leaf hit and 2^32 - 1 further
hits on the pair (frame 1, line 3), the packed `size_t` word has
accumulated 2^32 * halfWord + 1 = 2^64 + 1 and has wrapped to 1, which
decodes as total 0, leaf 1 — so `leaf_hits <= total_hits` fails on
this (huge but reachable) sample sequence. -/
theorem C7_counterexample :
    lineWordOf ((List.foldl processSample
        (initState Mode.custom false true false none)
        (([((1 : Nat), (3 : Nat))] : Stack) ::
          List.replicate (2 ^ 32 - 1)
            ([((99 : Nat), (0 : Nat)), (1, 3)] : Stack))).frames.getD []) 1 3 =
      some 1 ∧
    ¬((decodeLine 1).2 ≤ (decodeLine 1).1) := by
  constructor
  · rw [foldl_processSample_frames]
    simp only [show (initState Mode.custom false true false none).aggregate = true
      from rfl,
      show (initState Mode.custom false true false none).frames.getD [] =
        ([] : FramesTbl) from rfl]
    rw [lineWordOf_foldl_aggStack_char _ [] 1 3 (by norm_num)]
    have e1 : lineHitsStack ([((1 : Nat), (3 : Nat))] : Stack) 1 3 = 1 := by decide
    have e2 : lineHitsStack ([((99 : Nat), (0 : Nat)), (1, 3)] : Stack) 1 3 = 1 := by
      decide
    have e3 : leafMatch ([((99 : Nat), (0 : Nat)), (1, 3)] : Stack) 1 3 = false := by
      decide
    have e4 : leafMatch ([((1 : Nat), (3 : Nat))] : Stack) 1 3 = true := by decide
    have h1 : lineHits (([((1 : Nat), (3 : Nat))] : Stack) ::
        List.replicate (2 ^ 32 - 1)
          ([((99 : Nat), (0 : Nat)), (1, 3)] : Stack)) 1 3 = 2 ^ 32 := by
      rw [lineHits_cons, lineHits_replicate, e1, e2]
      norm_num
    have h2 : leafLineHits (([((1 : Nat), (3 : Nat))] : Stack) ::
        List.replicate (2 ^ 32 - 1)
          ([((99 : Nat), (0 : Nat)), (1, 3)] : Stack)) 1 3 = 1 := by
      rw [leafLineHits_cons, leafLineHits_replicate, e3, e4]
      norm_num
    rw [h1, h2]
    rw [if_neg (by norm_num)]
    norm_num [halfWord, wordSize, lineWordOf, lookupTbl]
  · decide

/-- Claim C7 (amended): for every sequence of aggregated samples and
every (frame, line) pair with line > 0 that receives fewer than 2^32
hits, the packed per-line word decodes (high half total, low half leaf,
exactly as the drain does) with `leaf_hits <= total_hits`; at 2^32 hits
the 64-bit word wraps and the inequality can fail. -/
theorem C7_packed_line_invariant (mode : Mode) (raw ha : Bool) (iv : Option Nat)
    (sl : List Stack) (F L w : Nat) (hL : 0 < L)
    (hbound : lineHits sl F L < 2 ^ 32)
    (hw : lineWordOf (((sl.foldl processSample
        (initState mode raw true ha iv)).frames).getD []) F L = some w) :
    (decodeLine w).2 ≤ (decodeLine w).1 := by
  rw [foldl_processSample_frames] at hw
  simp only [show (initState mode raw true ha iv).aggregate = true from rfl,
    show (initState mode raw true ha iv).frames.getD [] = ([] : FramesTbl)
      from rfl] at hw
  rw [lineWordOf_foldl_aggStack_char sl [] F L hL] at hw
  by_cases h0 : lineHits sl F L = 0
  · rw [if_pos h0] at hw
    simp [lineWordOf, lookupTbl] at hw
  · rw [if_neg h0] at hw
    have hleaf := leafLineHits_le_lineHits sl F L
    simp only [show lineWordOf ([] : FramesTbl) F L = none from rfl,
      Option.getD_none] at hw
    have hw2 : (0 + (lineHits sl F L * halfWord + leafLineHits sl F L)) %
        wordSize = w := Option.some_inj.mp hw
    show w % halfWord ≤ w / halfWord
    subst hw2
    norm_num [halfWord, wordSize] at hbound ⊢
    omega

theorem C7_packed_line_invariant_witness :
    ((0 : Nat) < 3 ∧ lineHits [[(1, 3)]] 1 3 < 2 ^ 32 ∧
        lineWordOf ((([[(1, 3)]] : List Stack).foldl processSample
            (initState Mode.custom false true false none)).frames.getD []) 1 3 =
          some (halfWord + 1)) ∧
      (decodeLine (halfWord + 1)).2 ≤ (decodeLine (halfWord + 1)).1 :=
  ⟨⟨by decide, by decide, by decide⟩,
    C7_packed_line_invariant Mode.custom false false none [[(1, 3)]] 1 3
      (halfWord + 1) (by decide) (by decide) (by decide)⟩

/-- Claim C8: the results drain is destructive — a successful drain
frees the frame table (sets it absent), and a second `results()` call
while still stopped returns the absent result. -/
theorem C8_drain_idempotent (s : ProfileState) (tbl : FramesTbl)
    (hr : s.running = false) (hf : s.frames = some tbl) :
    (resultsOp s).1.isSome = true ∧ (resultsOp s).2.frames = none ∧
      (resultsOp (resultsOp s).2).1 = none := by
  have hrr : ¬s.running = true := by rw [hr]; simp
  have h2 : (resultsOp s).2.frames = none := by
    unfold resultsOp
    simp only [hf]
    rw [if_neg hrr]
    by_cases hb : s.raw = true ∧ s.raw_samples ≠ [] <;> simp [hb]
  have h3 : ∀ s2 : ProfileState, s2.frames = none → (resultsOp s2).1 = none := by
    intro s2 hn
    unfold resultsOp
    simp only [hn]
  refine ⟨?_, h2, h3 _ h2⟩
  unfold resultsOp
  simp only [hf]
  rw [if_neg hrr]
  rfl

theorem C8_drain_idempotent_witness :
    ((initState Mode.wall false true false (some 1000)).running = false ∨
        ({ initState Mode.wall false true false (some 1000) with
          running := false } : ProfileState).running = false) ∧
      (resultsOp (resultsOp { initState Mode.wall false true false (some 1000) with
          running := false }).2).1 = none :=
  ⟨Or.inr rfl,
    (C8_drain_idempotent { initState Mode.wall false true false (some 1000) with
      running := false } [] rfl rfl).2.2⟩

/-- Claim C9: calling `start` while the profiler is already running
returns the failure value `false` without raising and leaves the whole
state unchanged, for every options argument (even an invalid mode). -/
theorem C9_start_while_running (opts : StartOpts) (s : ProfileState)
    (hr : s.running = true) :
    startOp opts s = .ok (false, s) := by
  unfold startOp
  rw [if_pos hr]

theorem C9_start_while_running_witness :
    (initState Mode.wall false true false (some 1000)).running = true ∧
      startOp ⟨ModeArg.unknown, none, true, false, true⟩
          (initState Mode.wall false true false (some 1000)) =
        .ok (false, initState Mode.wall false true false (some 1000)) :=
  ⟨rfl, C9_start_while_running ⟨ModeArg.unknown, none, true, false, true⟩
    (initState Mode.wall false true false (some 1000)) rfl⟩

/-- Claim C10: `sample()` while running in Heap mode returns true,
increments both `overall_signals` and `overall_samples`, and leaves the
Frame Aggregate Store, the raw log, and the liveness tracker untouched —
the recording path returns right after the capture when the mode is
Heap. -/
theorem C10_sample_in_heap_mode (s : ProfileState) (st : Stack)
    (hr : s.running = true) (hm : s.mode = Mode.heap) :
    (sampleOp s st).1 = true ∧
      (sampleOp s st).2.overall_signals = s.overall_signals + 1 ∧
      (sampleOp s st).2.overall_samples = s.overall_samples + 1 ∧
      (sampleOp s st).2.frames = s.frames ∧
      (sampleOp s st).2.raw_samples = s.raw_samples ∧
      (sampleOp s st).2.raw_sample_index = s.raw_sample_index ∧
      (sampleOp s st).2.frames_heap_live = s.frames_heap_live := by
  have h1 : (sampleOp s st).1 = true := by simp [sampleOp, hr]
  rw [sampleOp_snd, if_pos hr]
  unfold jobHandler
  rw [if_pos hr, recordSample_eq, if_pos hm]
  exact ⟨h1, rfl, rfl, rfl, rfl, rfl, rfl⟩

theorem C10_sample_in_heap_mode_witness :
    (initState Mode.heap false true false none).running = true ∧
      (sampleOp (initState Mode.heap false true false none) [(1, 2)]).1 = true ∧
      (sampleOp (initState Mode.heap false true false none)
          [(1, 2)]).2.overall_samples =
        (initState Mode.heap false true false none).overall_samples + 1 :=
  ⟨rfl,
    (C10_sample_in_heap_mode (initState Mode.heap false true false none)
      [(1, 2)] rfl rfl).1,
    (C10_sample_in_heap_mode (initState Mode.heap false true false none)
      [(1, 2)] rfl rfl).2.2.1⟩

end StackProf
